import Mathlib

/-!
# Verification of the amora-sdk stealth-address core

This file gives a shallow embedding in Lean 4 of the cryptographic core of the
amora-sdk TypeScript library (STARK-curve stealth addresses for Starknet), and
proves or refutes a fixed list of claims about it.

The embedding covers:

* the STARK curve `y^2 = x^3 + A*x + B` over the prime field of order
  `P = 2^251 + 17 * 2^192 + 1`, with the scalar order `N` of the generator,
  mirroring the curve arithmetic of the `@scure/starknet` dependency
  (`src/sdk/src/crypto.ts`);
* private-key normalization, public-key derivation, x-coordinate point
  recovery with the even-y convention, ECDH (`src/sdk/src/crypto.ts`);
* the memo codec (`encodeMemo` / `decodeMemo`), modelled at the UTF-8 byte
  level;
* the meta-address codec (`src/sdk/src/meta-address.ts`), modelled at the
  character-list level;
* announcement scanning (`scanAnnouncements`, `verifyAndComputeStealthKey`,
  `checkAnnouncementViewTag`) and watch-only scanning (`scanWithViewingKey`);
* the payment-link codec (`generatePaymentLink` / `parsePaymentLink` from
  `src/sdk/dist/index.mjs`), modelled at the UTF-8 byte level, including the
  lenient percent-decoding of `URLSearchParams` and the strict percent-decoding
  of `decodeURIComponent`.

The Poseidon hash and the Pedersen-based contract-address formula are external
dependencies of the library (`@scure/starknet`, `starknet.js`); they enter the
embedding as opaque function parameters, since no claim depends on their
internals.

The development needs the primality of both `P` and `N`; these are established
with Pratt/Lucas certificates checked by kernel computation via a verified
fast modular exponentiation.
-/

namespace Amora

/-! ## Fast modular exponentiation

`powMod m a e` computes `a ^ e % m` by binary exponentiation, structurally
recursing on a fuel argument so that the kernel can evaluate it on literals. -/

def powModAux (m : ℕ) : ℕ → ℕ → ℕ → ℕ
  | 0, _, _ => 1 % m
  | fuel + 1, a, e =>
    if e = 0 then 1 % m
    else
      let r := powModAux m fuel ((a * a) % m) (e / 2)
      if e % 2 = 1 then (r * a) % m else r

def powMod (m a e : ℕ) : ℕ :=
  powModAux m (e + 1) a e

theorem powModAux_correct (m : ℕ) :
    ∀ fuel e a : ℕ, e < 2 ^ fuel → powModAux m fuel a e = a ^ e % m := by
  intro fuel
  induction fuel with
  | zero =>
    intro e a he
    interval_cases e
    simp [powModAux]
  | succ f ih =>
    intro e a he
    rcases Nat.eq_zero_or_pos e with rfl | hpos
    · simp [powModAux]
    · have hne : e ≠ 0 := Nat.pos_iff_ne_zero.mp hpos
      have hlt : e / 2 < 2 ^ f := by
        have h2 : e < 2 ^ f * 2 := by
          calc e < 2 ^ (f + 1) := he
          _ = 2 ^ f * 2 := by rw [pow_succ]
        exact Nat.div_lt_of_lt_mul (by omega)
      have hr := ih (e / 2) ((a * a) % m) hlt
      have hsq : ((a * a) % m) ^ (e / 2) % m = (a * a) ^ (e / 2) % m := by
        rw [← Nat.pow_mod]
      have hpow : (a * a) ^ (e / 2) = a ^ (2 * (e / 2)) := by
        have hsq2 : a * a = a ^ 2 := (sq a).symm
        rw [hsq2, ← pow_mul]
      rcases Nat.even_or_odd e with heven | hodd
      · have h2 : e % 2 = 0 := Nat.even_iff.mp heven
        have hsplit : 2 * (e / 2) = e := by omega
        simp only [powModAux, if_neg hne, h2]
        norm_num
        rw [hr, hsq, hpow, hsplit]
      · have h2 : e % 2 = 1 := Nat.odd_iff.mp hodd
        have hsplit : 2 * (e / 2) + 1 = e := by omega
        simp only [powModAux, if_neg hne, h2, if_true]
        rw [hr, hsq, hpow]
        conv_rhs => rw [← hsplit, pow_succ]
        rw [Nat.mod_mul_mod]

theorem powMod_correct (m a e : ℕ) : powMod m a e = a ^ e % m := by
  have h : e < 2 ^ (e + 1) := by
    calc e < e + 1 := Nat.lt_succ_self e
    _ ≤ 2 ^ (e + 1) := Nat.le_of_lt (Nat.lt_two_pow (e + 1))
  exact powModAux_correct m (e + 1) e a h

/-! ## Lucas primality certificates -/

theorem zmod_pow_eq_one_iff (p a e : ℕ) (hp : 2 ≤ p) :
    (a : ZMod p) ^ e = 1 ↔ powMod p a e = 1 := by
  have h1 : ((1 : ℕ) : ZMod p) = (1 : ZMod p) := Nat.cast_one
  rw [powMod_correct]
  constructor
  · intro h
    have : ((a ^ e : ℕ) : ZMod p) = ((1 : ℕ) : ZMod p) := by
      rw [Nat.cast_pow, h1, h]
    have hmod := (ZMod.natCast_eq_natCast_iff' _ _ _).mp this
    rwa [Nat.mod_eq_of_lt (by omega : 1 < p)] at hmod
  · intro h
    have hmod : a ^ e % p = 1 % p := by
      rw [h, Nat.mod_eq_of_lt (by omega : 1 < p)]
    have := (ZMod.natCast_eq_natCast_iff' (a ^ e) 1 p).mpr hmod
    rwa [Nat.cast_pow, h1] at this

/-- Lucas/Pratt certificate checker: if `p - 1` factors as the product of the
listed prime powers and the witness `a` has full order, then `p` is prime. -/
theorem lucasCert (p a : ℕ) (l : List (ℕ × ℕ)) (hp : 2 ≤ p)
    (hfac : p - 1 = (l.map fun pe => pe.1 ^ pe.2).prod)
    (hql : ∀ pe ∈ l, Nat.Prime pe.1)
    (ha1 : powMod p a (p - 1) = 1)
    (haq : ∀ pe ∈ l, powMod p a ((p - 1) / pe.1) ≠ 1) : Nat.Prime p := by
  apply lucas_primality p (a : ZMod p)
  · rw [zmod_pow_eq_one_iff p a _ hp]
    exact ha1
  · intro q hq hdvd
    rw [Ne, zmod_pow_eq_one_iff p a _ hp]
    have hdvd' : q ∣ (l.map fun pe => pe.1 ^ pe.2).prod := hfac ▸ hdvd
    obtain ⟨b, hb, hqb⟩ := (hq.prime.dvd_prod_iff).mp hdvd'
    obtain ⟨pe, hpe, rfl⟩ := List.mem_map.mp hb
    have hq1 : q ∣ pe.1 := hq.prime.dvd_of_dvd_pow hqb
    have : q = pe.1 := (Nat.prime_dvd_prime_iff_eq hq (hql pe hpe)).mp hq1
    subst this
    exact haq pe hpe

set_option maxRecDepth 400000

/-! ### Certificates for the prime factors appearing in the Pratt tree of `P`

`P = 2^251 + 17 * 2^192 + 1` is the STARK field prime;
`P - 1 = 2^192 * 5 * 7 * 98714381 * 166848103`. -/

theorem prime_1233929 : Nat.Prime 1233929 :=
  lucasCert 1233929 6 [(2, 3), (17, 1), (43, 1), (211, 1)] (by norm_num)
    (by decide) (by intro pe hpe; fin_cases hpe <;> norm_num) (by decide) (by decide)

theorem prime_2467859 : Nat.Prime 2467859 :=
  lucasCert 2467859 2 [(2, 1), (1233929, 1)] (by norm_num)
    (by decide) (by intro pe hpe; fin_cases hpe <;> first | exact prime_1233929 | norm_num)
    (by decide) (by decide)

theorem prime_4935719 : Nat.Prime 4935719 :=
  lucasCert 4935719 17 [(2, 1), (2467859, 1)] (by norm_num)
    (by decide) (by intro pe hpe; fin_cases hpe <;> first | exact prime_2467859 | norm_num)
    (by decide) (by decide)

theorem prime_98714381 : Nat.Prime 98714381 :=
  lucasCert 98714381 2 [(2, 2), (5, 1), (4935719, 1)] (by norm_num)
    (by decide) (by intro pe hpe; fin_cases hpe <;> first | exact prime_4935719 | norm_num)
    (by decide) (by decide)

theorem prime_9269339 : Nat.Prime 9269339 :=
  lucasCert 9269339 6 [(2, 1), (13, 1), (43, 1), (8291, 1)] (by norm_num)
    (by decide) (by intro pe hpe; fin_cases hpe <;> norm_num) (by decide) (by decide)

theorem prime_166848103 : Nat.Prime 166848103 :=
  lucasCert 166848103 6 [(2, 1), (3, 2), (9269339, 1)] (by norm_num)
    (by decide) (by intro pe hpe; fin_cases hpe <;> first | exact prime_9269339 | norm_num)
    (by decide) (by decide)

/-- The STARK field prime `P = 2^251 + 17 * 2^192 + 1` is prime. -/
theorem prime_starkP :
    Nat.Prime 3618502788666131213697322783095070105623107215331596699973092056135872020481 :=
  lucasCert _ 3 [(2, 192), (5, 1), (7, 1), (98714381, 1), (166848103, 1)] (by norm_num)
    (by decide)
    (by intro pe hpe; fin_cases hpe <;>
        first | exact prime_98714381 | exact prime_166848103 | norm_num)
    (by decide) (by decide)

/-! ### Certificates for the prime factors appearing in the Pratt tree of `N`

`N` is the order of the STARK curve generator;
`N - 1 = 2 * 3 * 1481071 * 74436419 * C` with `C` a 203-bit prime. -/

theorem prime_1481071 : Nat.Prime 1481071 :=
  lucasCert 1481071 3 [(2, 1), (3, 1), (5, 1), (49369, 1)] (by norm_num)
    (by decide) (by intro pe hpe; fin_cases hpe <;> norm_num) (by decide) (by decide)

theorem prime_231169 : Nat.Prime 231169 :=
  lucasCert 231169 17 [(2, 8), (3, 1), (7, 1), (43, 1)] (by norm_num)
    (by decide) (by intro pe hpe; fin_cases hpe <;> norm_num) (by decide) (by decide)

theorem prime_74436419 : Nat.Prime 74436419 :=
  lucasCert 74436419 7 [(2, 1), (7, 1), (23, 1), (231169, 1)] (by norm_num)
    (by decide) (by intro pe hpe; fin_cases hpe <;> first | exact prime_231169 | norm_num)
    (by decide) (by decide)

theorem prime_131797 : Nat.Prime 131797 :=
  lucasCert 131797 5 [(2, 2), (3, 2), (7, 1), (523, 1)] (by norm_num)
    (by decide) (by intro pe hpe; fin_cases hpe <;> norm_num) (by decide) (by decide)

theorem prime_10108547 : Nat.Prime 10108547 :=
  lucasCert 10108547 2 [(2, 1), (7, 1), (23, 1), (31393, 1)] (by norm_num)
    (by decide) (by intro pe hpe; fin_cases hpe <;> norm_num) (by decide) (by decide)

theorem prime_22206313 : Nat.Prime 22206313 :=
  lucasCert 22206313 5 [(2, 3), (3, 5), (11423, 1)] (by norm_num)
    (by decide) (by intro pe hpe; fin_cases hpe <;> norm_num) (by decide) (by decide)

theorem prime_74837449 : Nat.Prime 74837449 :=
  lucasCert 74837449 13 [(2, 3), (3, 2), (7, 1), (83, 1), (1789, 1)] (by norm_num)
    (by decide) (by intro pe hpe; fin_cases hpe <;> norm_num) (by decide) (by decide)

theorem prime_565787 : Nat.Prime 565787 :=
  lucasCert 565787 2 [(2, 1), (13, 1), (47, 1), (463, 1)] (by norm_num)
    (by decide) (by intro pe hpe; fin_cases hpe <;> norm_num) (by decide) (by decide)

theorem prime_28547348873 : Nat.Prime 28547348873 :=
  lucasCert 28547348873 3 [(2, 3), (7, 1), (17, 1), (53, 1), (565787, 1)] (by norm_num)
    (by decide) (by intro pe hpe; fin_cases hpe <;> first | exact prime_565787 | norm_num)
    (by decide) (by decide)

theorem prime_11753132899 : Nat.Prime 11753132899 :=
  lucasCert 11753132899 3 [(2, 1), (3, 1), (13, 1), (19, 1), (41, 1), (67, 1), (2887, 1)]
    (by norm_num)
    (by decide) (by intro pe hpe; fin_cases hpe <;> norm_num) (by decide) (by decide)

theorem prime_12904939923103 : Nat.Prime 12904939923103 :=
  lucasCert 12904939923103 3 [(2, 1), (3, 2), (61, 1), (11753132899, 1)] (by norm_num)
    (by decide)
    (by intro pe hpe; fin_cases hpe <;> first | exact prime_11753132899 | norm_num)
    (by decide) (by decide)

theorem prime_1803099112058626586861 : Nat.Prime 1803099112058626586861 :=
  lucasCert 1803099112058626586861 2
    [(2, 2), (5, 1), (37, 1), (43, 1), (4391, 1), (12904939923103, 1)] (by norm_num)
    (by decide)
    (by intro pe hpe; fin_cases hpe <;> first | exact prime_12904939923103 | norm_num)
    (by decide) (by decide)

theorem prime_bigC : Nat.Prime 5470365079085120887157193270902448565659295524958143968059153 :=
  lucasCert _ 15
    [(2, 4), (3, 1), (131797, 1), (10108547, 1), (22206313, 1), (74837449, 1),
      (28547348873, 1), (1803099112058626586861, 1)] (by norm_num)
    (by decide)
    (by intro pe hpe; fin_cases hpe <;>
        first
          | exact prime_131797 | exact prime_10108547 | exact prime_22206313
          | exact prime_74837449 | exact prime_28547348873
          | exact prime_1803099112058626586861 | norm_num)
    (by decide) (by decide)

/-- The order `N` of the STARK curve generator is prime. -/
theorem prime_starkN :
    Nat.Prime 3618502788666131213697322783095070105526743751716087489154079457884512865583 :=
  lucasCert _ 3
    [(2, 1), (3, 1), (1481071, 1), (74436419, 1),
      (5470365079085120887157193270902448565659295524958143968059153, 1)] (by norm_num)
    (by decide)
    (by intro pe hpe; fin_cases hpe <;>
        first | exact prime_1481071 | exact prime_74436419 | exact prime_bigC | norm_num)
    (by decide) (by decide)

/-! ## The STARK curve

Constants of the curve `y^2 = x^3 + CurveA * x + CurveB` over the field of
order `StarkP`, with generator `(Gx, Gy)` of order `StarkN`, exactly as
exported by the `@scure/starknet` dependency (`CURVE.p`, `CURVE.n`, `CURVE.a`,
`CURVE.b`, `CURVE.Gx`, `CURVE.Gy`). -/

def StarkP : ℕ := 3618502788666131213697322783095070105623107215331596699973092056135872020481

def StarkN : ℕ := 3618502788666131213697322783095070105526743751716087489154079457884512865583

def CurveA : ℕ := 1

def CurveB : ℕ := 3141592653589793238462643383279502884197169399375105820974944592307816406665

def Gx : ℕ := 874739451078007766457464989774322083649278607533249481151382481072868806602

def Gy : ℕ := 152666792071518830868575557812948353041420400780739481342941381225525861407

instance factPrimeP : Fact (Nat.Prime StarkP) := ⟨prime_starkP⟩

instance factPrimeN : Fact (Nat.Prime StarkN) := ⟨prime_starkN⟩

instance neZeroP : NeZero StarkP := ⟨by norm_num [StarkP]⟩

/-- The STARK base field. -/
abbrev F : Type := ZMod StarkP

/-! ### Executable field arithmetic on `ℕ` representatives

These mirror the big-integer modular arithmetic of the curve library
(`CURVE.Fp` operations); inversion is by Fermat exponentiation. -/

def fadd (a b : ℕ) : ℕ := (a + b) % StarkP

def fmul (a b : ℕ) : ℕ := a * b % StarkP

def fneg (a : ℕ) : ℕ := (StarkP - a % StarkP) % StarkP

def fsub (a b : ℕ) : ℕ := fadd a (fneg b)

def fInv (a : ℕ) : ℕ := powMod StarkP a (StarkP - 2)

theorem fadd_val (a b : F) : fadd a.val b.val = (a + b).val :=
  (ZMod.val_add a b).symm

theorem fmul_val (a b : F) : fmul a.val b.val = (a * b).val :=
  (ZMod.val_mul a b).symm

theorem fneg_val (a : F) : fneg a.val = (-a).val := by
  rw [fneg, Nat.mod_eq_of_lt (ZMod.val_lt a)]
  exact (ZMod.neg_val' a).symm

theorem fsub_val (a b : F) : fsub a.val b.val = (a - b).val := by
  rw [fsub, fneg_val, fadd_val, sub_eq_add_neg]

theorem zmod_pow_sub_two (a : F) : a ^ (StarkP - 2) = a⁻¹ := by
  rcases eq_or_ne a 0 with rfl | ha
  · rw [inv_zero, zero_pow (by norm_num [StarkP])]
  · refine (inv_eq_of_mul_eq_one_right ?_).symm
    have h : a * a ^ (StarkP - 2) = a ^ (StarkP - 1) := by
      have h2 : StarkP - 2 + 1 = StarkP - 1 := by norm_num [StarkP]
      rw [← pow_succ', h2]
    rw [h]
    exact ZMod.pow_card_sub_one_eq_one ha

theorem fInv_val (a : F) : fInv a.val = a⁻¹.val := by
  rw [fInv, powMod_correct, ← zmod_pow_sub_two]
  have h : ((a.val ^ (StarkP - 2) : ℕ) : F) = a ^ (StarkP - 2) := by
    rw [Nat.cast_pow, ZMod.natCast_rightInverse a]
  rw [← h, ZMod.val_natCast]

theorem val_inj {a b : F} (h : a.val = b.val) : a = b :=
  ZMod.val_injective StarkP h

theorem val_two : (2 : F).val = 2 := by
  have h : ((2 : ℕ) : F) = (2 : F) := by push_cast; rfl
  rw [← h, ZMod.val_cast_of_lt (by norm_num [StarkP])]

theorem val_three : (3 : F).val = 3 := by
  have h : ((3 : ℕ) : F) = (3 : F) := by push_cast; rfl
  rw [← h, ZMod.val_cast_of_lt (by norm_num [StarkP])]

theorem val_curveA : ((CurveA : ℕ) : F).val = CurveA :=
  ZMod.val_cast_of_lt (by norm_num [StarkP, CurveA])

/-! ### Executable affine point arithmetic

A raw point is `none` (the point at infinity) or an affine coordinate pair of
`ℕ` representatives.  `rawAdd` is the affine chord-tangent addition, `rawSmul`
the binary double-and-add scalar multiplication.  `zAdd` is the same algorithm
over `F`, used as a stepping stone to relate `rawAdd` to the Mathlib group
law on the curve. -/

abbrev RawPt := Option (ℕ × ℕ)

def rawAdd : RawPt → RawPt → RawPt
  | none, q => q
  | p, none => p
  | some (x₁, y₁), some (x₂, y₂) =>
    if x₁ = x₂ ∧ y₁ = fneg y₂ then none
    else
      let L := if x₁ = x₂ then fmul (fadd (fmul 3 (fmul x₁ x₁)) CurveA) (fInv (fmul 2 y₁))
               else fmul (fsub y₁ y₂) (fInv (fsub x₁ x₂))
      let x₃ := fsub (fsub (fmul L L) x₁) x₂
      some (x₃, fsub (fmul L (fsub x₁ x₃)) y₁)

def zAdd : Option (F × F) → Option (F × F) → Option (F × F)
  | none, q => q
  | p, none => p
  | some (x₁, y₁), some (x₂, y₂) =>
    if x₁ = x₂ ∧ y₁ = -y₂ then none
    else
      let L := if x₁ = x₂ then (3 * (x₁ * x₁) + ((CurveA : ℕ) : F)) * (2 * y₁)⁻¹
               else (y₁ - y₂) * (x₁ - x₂)⁻¹
      let x₃ := L * L - x₁ - x₂
      some (x₃, L * (x₁ - x₃) - y₁)

def mapVal : Option (F × F) → RawPt
  | none => none
  | some (x, y) => some (x.val, y.val)

theorem rawAdd_mapVal (p q : Option (F × F)) :
    rawAdd (mapVal p) (mapVal q) = mapVal (zAdd p q) := by
  cases p with
  | none => cases q <;> rfl
  | some pp =>
    cases q with
    | none => rfl
    | some qq =>
      obtain ⟨x₁, y₁⟩ := pp
      obtain ⟨x₂, y₂⟩ := qq
      show rawAdd (some (x₁.val, y₁.val)) (some (x₂.val, y₂.val)) = _
      rw [rawAdd, zAdd]
      by_cases hmain : x₁ = x₂ ∧ y₁ = -y₂
      · rw [if_pos ⟨congrArg ZMod.val hmain.1, by rw [hmain.2, fneg_val]⟩, if_pos hmain]
        rfl
      · rw [if_neg (fun h => hmain ⟨val_inj h.1, val_inj (h.2.trans (fneg_val y₂))⟩),
          if_neg hmain]
        have hL : (if x₁.val = x₂.val then
              fmul (fadd (fmul 3 (fmul x₁.val x₁.val)) CurveA) (fInv (fmul 2 y₁.val))
            else fmul (fsub y₁.val y₂.val) (fInv (fsub x₁.val x₂.val))) =
            (if x₁ = x₂ then (3 * (x₁ * x₁) + ((CurveA : ℕ) : F)) * (2 * y₁)⁻¹
              else (y₁ - y₂) * (x₁ - x₂)⁻¹).val := by
          by_cases hx : x₁ = x₂
          · rw [if_pos (congrArg ZMod.val hx), if_pos hx]
            rw [show (3 : ℕ) = (3 : F).val from val_three.symm,
              show (2 : ℕ) = (2 : F).val from val_two.symm,
              show CurveA = ((CurveA : ℕ) : F).val from val_curveA.symm,
              fmul_val, fmul_val, fadd_val, fmul_val, fInv_val, fmul_val, val_curveA]
          · rw [if_neg (fun h => hx (val_inj h)), if_neg hx,
              fsub_val, fsub_val, fInv_val, fmul_val]
        simp only [hL]
        simp only [fmul_val, fsub_val]
        rfl

/-! ### The curve as a Mathlib Weierstrass curve, and the bridge to `rawAdd` -/

def W : WeierstrassCurve.Affine F where
  a₁ := 0
  a₂ := 0
  a₃ := 0
  a₄ := ((CurveA : ℕ) : F)
  a₆ := ((CurveB : ℕ) : F)

theorem W_a₁ : W.a₁ = 0 := rfl

theorem W_a₂ : W.a₂ = 0 := rfl

theorem W_a₃ : W.a₃ = 0 := rfl

theorem W_a₄ : W.a₄ = ((CurveA : ℕ) : F) := rfl

theorem W_a₆ : W.a₆ = ((CurveB : ℕ) : F) := rfl

theorem W_negY (x y : F) : W.negY x y = -y := by
  rw [WeierstrassCurve.Affine.negY, W_a₁, W_a₃]
  ring

def toZ : W.Point → Option (F × F)
  | .zero => none
  | @WeierstrassCurve.Affine.Point.some _ _ _ x y _ => some (x, y)

open WeierstrassCurve.Affine in
theorem toZ_add (p q : W.Point) : toZ (p + q) = zAdd (toZ p) (toZ q) := by
  cases p with
  | zero =>
    rw [show WeierstrassCurve.Affine.Point.zero = (0 : W.Point) from rfl, zero_add]
    cases q <;> rfl
  | @some x₁ y₁ h₁ =>
    cases q with
    | zero =>
      rw [show WeierstrassCurve.Affine.Point.zero = (0 : W.Point) from rfl, add_zero]
      rfl
    | @some x₂ y₂ h₂ =>
      by_cases hcase : x₁ = x₂ ∧ y₁ = W.negY x₂ y₂
      · rw [Point.add_of_Y_eq hcase.1 hcase.2]
        have hz : x₁ = x₂ ∧ y₁ = -y₂ := ⟨hcase.1, by rw [hcase.2, W_negY]⟩
        show (none : Option (F × F)) = zAdd (some (x₁, y₁)) (some (x₂, y₂))
        rw [zAdd, if_pos hz]
      · have hxy : x₁ = x₂ → y₁ ≠ W.negY x₂ y₂ := fun hx hy => hcase ⟨hx, hy⟩
        rw [Point.add_of_imp hxy]
        have hz : ¬(x₁ = x₂ ∧ y₁ = -y₂) := fun h => hcase ⟨h.1, by rw [h.2, W_negY]⟩
        show some (W.addX x₁ x₂ (W.slope x₁ x₂ y₁ y₂),
            W.addY x₁ x₂ y₁ (W.slope x₁ x₂ y₁ y₂)) = zAdd (some (x₁, y₁)) (some (x₂, y₂))
        rw [zAdd, if_neg hz]
        have hslope : W.slope x₁ x₂ y₁ y₂ =
            (if x₁ = x₂ then (3 * (x₁ * x₁) + ((CurveA : ℕ) : F)) * (2 * y₁)⁻¹
              else (y₁ - y₂) * (x₁ - x₂)⁻¹) := by
          by_cases hx : x₁ = x₂
          · rw [if_pos hx, slope_of_Y_ne hx (hxy hx)]
            have h2y : y₁ - W.negY x₁ y₁ = 2 * y₁ := by rw [W_negY]; ring
            rw [h2y, div_eq_mul_inv]
            congr 1
            rw [W_a₁, W_a₂, W_a₄]
            ring
          · rw [if_neg hx, slope_of_X_ne hx, div_eq_mul_inv]
        rw [← hslope]
        have hx3 : W.addX x₁ x₂ (W.slope x₁ x₂ y₁ y₂) =
            W.slope x₁ x₂ y₁ y₂ * W.slope x₁ x₂ y₁ y₂ - x₁ - x₂ := by
          rw [WeierstrassCurve.Affine.addX, W_a₁, W_a₂]
          ring
        have hy3 : W.addY x₁ x₂ y₁ (W.slope x₁ x₂ y₁ y₂) =
            W.slope x₁ x₂ y₁ y₂ * (x₁ - (W.slope x₁ x₂ y₁ y₂ * W.slope x₁ x₂ y₁ y₂ - x₁ - x₂))
              - y₁ := by
          rw [WeierstrassCurve.Affine.addY, WeierstrassCurve.Affine.negAddY, W_negY,
            WeierstrassCurve.Affine.addX, W_a₁, W_a₂]
          ring
        rw [hx3, hy3]

def toRaw (p : W.Point) : RawPt := mapVal (toZ p)

theorem toRaw_add (p q : W.Point) : toRaw (p + q) = rawAdd (toRaw p) (toRaw q) := by
  rw [toRaw, toRaw, toRaw, toZ_add, rawAdd_mapVal]

theorem toRaw_eq_none {p : W.Point} (h : toRaw p = none) : p = 0 := by
  cases p with
  | zero => rfl
  | @some x y hp => exact absurd h (by simp [toRaw, toZ, mapVal])

/-! ### Binary scalar multiplication on raw points -/

def rawSmulAux : ℕ → RawPt → ℕ → RawPt
  | 0, _, _ => none
  | fuel + 1, p, e =>
    if e = 0 then none
    else
      let r := rawSmulAux fuel (rawAdd p p) (e / 2)
      if e % 2 = 1 then rawAdd p r else r

def rawSmul (e : ℕ) (p : RawPt) : RawPt := rawSmulAux (e + 1) p e

theorem rawSmulAux_toRaw :
    ∀ fuel e : ℕ, ∀ p : W.Point, e < 2 ^ fuel →
      rawSmulAux fuel (toRaw p) e = toRaw (e • p) := by
  intro fuel
  induction fuel with
  | zero =>
    intro e p he
    interval_cases e
    rw [zero_nsmul]
    rfl
  | succ f ih =>
    intro e p he
    rcases Nat.eq_zero_or_pos e with rfl | hpos
    · rw [zero_nsmul]
      rfl
    · have hne : e ≠ 0 := Nat.pos_iff_ne_zero.mp hpos
      have hlt : e / 2 < 2 ^ f := by
        have h2 : e < 2 ^ f * 2 := by
          calc e < 2 ^ (f + 1) := he
          _ = 2 ^ f * 2 := by rw [pow_succ]
        exact Nat.div_lt_of_lt_mul (by omega)
      have hrec : rawSmulAux f (rawAdd (toRaw p) (toRaw p)) (e / 2) =
          toRaw ((e / 2) • (p + p)) := by
        rw [← toRaw_add]
        exact ih (e / 2) (p + p) hlt
      have hpp : p + p = 2 • p := (two_nsmul p).symm
      rcases Nat.even_or_odd e with heven | hodd
      · have h2 : e % 2 = 0 := Nat.even_iff.mp heven
        have hsplit : 2 * (e / 2) = e := by omega
        simp only [rawSmulAux, if_neg hne, h2]
        norm_num
        rw [hrec, hpp, ← mul_nsmul, hsplit]
      · have h2 : e % 2 = 1 := Nat.odd_iff.mp hodd
        simp only [rawSmulAux, if_neg hne, h2, if_true]
        rw [hrec, ← toRaw_add, hpp, ← mul_nsmul]
        congr 1
        calc p + (2 * (e / 2)) • p = 1 • p + (2 * (e / 2)) • p := by rw [one_nsmul]
        _ = (1 + 2 * (e / 2)) • p := (add_nsmul p 1 (2 * (e / 2))).symm
        _ = e • p := by congr 1; omega

theorem rawSmul_toRaw (e : ℕ) (p : W.Point) : rawSmul e (toRaw p) = toRaw (e • p) := by
  have h : e < 2 ^ (e + 1) := by
    calc e < e + 1 := Nat.lt_succ_self e
    _ ≤ 2 ^ (e + 1) := Nat.le_of_lt (Nat.lt_two_pow (e + 1))
  exact rawSmulAux_toRaw (e + 1) e p h

/-! ### The generator and its order -/

theorem hG_nonsingular : W.Nonsingular ((Gx : ℕ) : F) ((Gy : ℕ) : F) := by
  rw [WeierstrassCurve.Affine.nonsingular_iff, WeierstrassCurve.Affine.equation_iff]
  constructor
  · rw [W_a₁, W_a₂, W_a₃, W_a₄, W_a₆]
    have h : ((Gy ^ 2 : ℕ) : F) = ((Gx ^ 3 + CurveA * Gx + CurveB : ℕ) : F) := by
      rw [ZMod.natCast_eq_natCast_iff']
      decide
    push_cast at h
    linear_combination h
  · right
    rw [W_a₁, W_a₃]
    intro hcontra
    have hGyF : (2 : F) * ((Gy : ℕ) : F) = 0 := by
      rw [two_mul]
      nth_rewrite 1 [hcontra]
      ring
    have h2 : ((2 * Gy : ℕ) : F) = 0 := by
      push_cast
      exact hGyF
    have hdvd : StarkP ∣ 2 * Gy := by
      rwa [ZMod.natCast_zmod_eq_zero_iff_dvd] at h2
    have hle : StarkP ≤ 2 * Gy := Nat.le_of_dvd (by decide) hdvd
    exact absurd hle (by decide)

def G : W.Point := WeierstrassCurve.Affine.Point.some hG_nonsingular

theorem toRawG : toRaw G = some (Gx, Gy) := by
  show mapVal (some (((Gx : ℕ) : F), ((Gy : ℕ) : F))) = some (Gx, Gy)
  rw [mapVal, ZMod.val_cast_of_lt (by decide : Gx < StarkP),
    ZMod.val_cast_of_lt (by decide : Gy < StarkP)]

set_option maxHeartbeats 40000000 in
theorem rawNsmulG : rawSmul StarkN (some (Gx, Gy)) = none := by decide

set_option maxRecDepth 8000

theorem NsmulG_eq_zero : StarkN • G = 0 := by
  have h := rawSmul_toRaw StarkN G
  rw [toRawG, rawNsmulG] at h
  exact toRaw_eq_none h.symm

theorem G_ne_zero : G ≠ 0 :=
  WeierstrassCurve.Affine.Point.some_ne_zero hG_nonsingular

theorem addOrderOfG : addOrderOf G = StarkN :=
  addOrderOf_eq_prime NsmulG_eq_zero G_ne_zero

theorem smulG_eq_zero_iff (k : ℕ) : k • G = 0 ↔ StarkN ∣ k := by
  rw [← addOrderOf_dvd_iff_nsmul_eq_zero, addOrderOfG]

theorem mod_smulG (k : ℕ) : (k % StarkN) • G = k • G := by
  conv_lhs => rw [← addOrderOfG]
  exact mod_addOrderOf_nsmul G k

/-! ## Embedding of `src/sdk/src/crypto.ts`

Errors model the exceptions thrown by the library: `notOnCurve` for the
x-coordinate recovery failure, `outOfRange` for scalars outside `[1, N-1]`
(rejected by the curve library's `multiply` / `getPublicKey`), `zeroPoint`
for the point at infinity where the library refuses to serialize it. -/

inductive CryptoError
  | notOnCurve
  | outOfRange
  | zeroPoint
deriving DecidableEq, Repr

/-- `CURVE_ORDER` from `crypto.ts` (`CURVE.n`). -/
def CURVE_ORDER : ℕ := StarkN

/-- `SCHEME_ID_STARK` from `crypto.ts`. -/
def SCHEME_ID_STARK : ℕ := 0x535441524b

/-- The x-coordinate of a possibly-infinite raw point, as read back through the
library's `toAffine` (which yields `(0, 0)` for the point at infinity). -/
def xOfRaw : RawPt → ℕ
  | none => 0
  | some (x, _) => x

/-- The y-coordinate, same convention. -/
def yOfRaw : RawPt → ℕ
  | none => 0
  | some (_, y) => y

/-- A scalar accepted by the curve library's `multiply` (`1 ≤ k < CURVE.n`). -/
def validScalar (k : ℕ) : Prop := 1 ≤ k ∧ k < StarkN

instance (k : ℕ) : Decidable (validScalar k) := by
  unfold validScalar
  infer_instance

/-- `y^2 = x^3 + alpha*x + beta` as computed in `recoverPoint`. -/
def ySquared (x : F) : F := x * x * x + ((CurveA : ℕ) : F) * x + ((CurveB : ℕ) : F)

instance decEvenRoot (z : F) : Decidable (∃! y : F, y * y = z ∧ y.val % 2 = 0) :=
  decidable_of_iff
    (∃ y : F, (y * y = z ∧ y.val % 2 = 0) ∧ ∀ w : F, (w * w = z ∧ w.val % 2 = 0) → w = y)
    Iff.rfl

/-- `recoverPoint` from `crypto.ts`: recover the point with even y-coordinate
from an x-coordinate; fails with `notOnCurve` when `y^2` has no square root. -/
def recoverPoint (x : ℕ) : Except CryptoError (ℕ × ℕ) :=
  if h : ∃! y : F, y * y = ySquared (x : F) ∧ y.val % 2 = 0 then
    .ok (((x : F)).val, (Fintype.choose _ h).val)
  else .error .notOnCurve

/-- `scalarMultiply` from `crypto.ts`: recover the point from `pointX`,
multiply by `scalar`, return the x-coordinate. -/
def scalarMultiply (scalar pointX : ℕ) : Except CryptoError ℕ := do
  let pt ← recoverPoint pointX
  if validScalar scalar then .ok (xOfRaw (rawSmul scalar (some pt)))
  else .error .outOfRange

/-- `ecdh` from `crypto.ts`. -/
def ecdh (privateKey publicKey : ℕ) : Except CryptoError ℕ :=
  scalarMultiply privateKey publicKey

/-- `derivePublicKey` from `crypto.ts`: x-coordinate of `k·G`; the library
rejects scalars outside `[1, N-1]` and refuses to serialize the zero point. -/
def derivePublicKey (privateKey : ℕ) : Except CryptoError ℕ :=
  if validScalar privateKey then
    match rawSmul privateKey (some (Gx, Gy)) with
    | none => .error .zeroPoint
    | some (x, _) => .ok x
  else .error .outOfRange

/-- `normalizePrivateKey` from `crypto.ts`: negate the key mod `N` when the
y-coordinate of `k·G` is odd. -/
def normalizePrivateKey (privateKey : ℕ) : Except CryptoError ℕ :=
  if validScalar privateKey then
    .ok (if yOfRaw (rawSmul privateKey (some (Gx, Gy))) % 2 ≠ 0
      then StarkN - privateKey else privateKey)
  else .error .outOfRange

section Poseidon

/- The Poseidon hash of a single felt.  The hash (`poseidonHashMany` from
`@scure/starknet`) is an external dependency of the library; it enters the
embedding as an opaque function parameter. -/
variable (H : ℕ → ℕ)

/-- `computeViewTag` from `crypto.ts`: low byte of `poseidonHash(sharedSecret)`. -/
def computeViewTag (sharedSecret : ℕ) : ℕ := H sharedSecret &&& 0xff

/-- `computeStealthPrivateKey` from `crypto.ts`:
`(spendingPrivateKey + poseidonHash(sharedSecret)) mod CURVE_ORDER`. -/
def computeStealthPrivateKey (spendingPrivateKey sharedSecret : ℕ) : ℕ :=
  (spendingPrivateKey + H sharedSecret) % CURVE_ORDER

/-- `computeStealthPublicKey` from `crypto.ts`: x-coordinate of
`recoverPoint(spendingPubKey) + poseidonHash(sharedSecret)·G`. -/
def computeStealthPublicKey (spendingPubKey sharedSecret : ℕ) :
    Except CryptoError ℕ := do
  let spendingPoint ← recoverPoint spendingPubKey
  let hashValue := H sharedSecret
  if validScalar hashValue then
    .ok (xOfRaw (rawAdd (some spendingPoint) (rawSmul hashValue (some (Gx, Gy)))))
  else .error .outOfRange

end Poseidon

/-! ### Properties of `recoverPoint` -/

theorem starkP_odd : StarkP % 2 = 1 := by decide

theorem exists_unique_even_root {z : F} (hz : ∃ y : F, y * y = z) :
    ∃! y : F, y * y = z ∧ y.val % 2 = 0 := by
  obtain ⟨y, hy⟩ := hz
  rcases eq_or_ne y 0 with rfl | hy0
  · refine ⟨0, ⟨by rw [← hy], by simp⟩, ?_⟩
    intro w hw
    have : w * w = 0 := by rw [hw.1, ← hy, mul_zero]
    exact mul_self_eq_zero.mp this
  · have hvy : y.val ≠ 0 := fun h => hy0 ((ZMod.val_eq_zero y).mp h)
    have hnegval : (-y).val = StarkP - y.val := by
      rw [ZMod.neg_val, if_neg hy0]
    have hparity : (-y).val % 2 ≠ y.val % 2 := by
      rw [hnegval]
      have hlt : y.val < StarkP := ZMod.val_lt y
      have hodd := starkP_odd
      omega
    have hsq : (-y) * (-y) = z := by rw [neg_mul_neg, hy]
    by_cases he : y.val % 2 = 0
    · refine ⟨y, ⟨hy, he⟩, ?_⟩
      intro w hw
      have hww : w * w = y * y := by rw [hw.1, hy]
      rcases mul_self_eq_mul_self_iff.mp hww with h | h
      · exact h
      · exact absurd hw.2 (by rw [h]; omega)
    · refine ⟨-y, ⟨hsq, by omega⟩, ?_⟩
      intro w hw
      have hww : w * w = y * y := by rw [hw.1, hy]
      rcases mul_self_eq_mul_self_iff.mp hww with h | h
      · exact absurd hw.2 (by rw [h]; exact he)
      · exact h

theorem equation_root {x y : F} (hxy : W.Nonsingular x y) : y * y = ySquared x := by
  have heq := (WeierstrassCurve.Affine.equation_iff W x y).mp hxy.1
  rw [W_a₁, W_a₂, W_a₃, W_a₄, W_a₆] at heq
  rw [ySquared]
  linear_combination heq

theorem recoverPoint_even {x y : F} (hxy : W.Nonsingular x y)
    (he : y.val % 2 = 0) : recoverPoint x.val = .ok (x.val, y.val) := by
  have hroot := equation_root hxy
  have hx : ((x.val : ℕ) : F) = x := ZMod.natCast_rightInverse x
  have hz : ∃ w : F, w * w = ySquared ((x.val : ℕ) : F) := ⟨y, by rw [hx]; exact hroot⟩
  have hu := exists_unique_even_root hz
  rw [recoverPoint, dif_pos hu]
  have hchoose := Fintype.choose_spec _ hu
  have : y = Fintype.choose _ hu := hu.unique ⟨by rw [hx]; exact hroot, he⟩ hchoose
  rw [← this, hx]

theorem recoverPoint_point {x y : F} (hxy : W.Nonsingular x y) :
    (recoverPoint x.val = .ok (x.val, y.val) ∧ y.val % 2 = 0) ∨
    (recoverPoint x.val = .ok (x.val, (-y).val) ∧ (-y).val % 2 = 0) := by
  by_cases he : y.val % 2 = 0
  · exact Or.inl ⟨recoverPoint_even hxy he, he⟩
  · right
    have hneg := WeierstrassCurve.Affine.nonsingular_neg hxy
    rw [W_negY] at hneg
    have hy0 : y ≠ 0 := by
      intro h
      rw [h] at he
      exact he (by simp)
    have heneg : (-y).val % 2 = 0 := by
      rw [ZMod.neg_val, if_neg hy0]
      have hlt : y.val < StarkP := ZMod.val_lt y
      have hv0 : y.val ≠ 0 := fun h => hy0 ((ZMod.val_eq_zero y).mp h)
      have hodd := starkP_odd
      omega
    exact ⟨recoverPoint_even hneg heneg, heneg⟩

theorem recoverPoint_no_root {x : ℕ} (h : ∀ y : F, y * y ≠ ySquared (x : F)) :
    recoverPoint x = .error .notOnCurve := by
  rw [recoverPoint, dif_neg]
  intro hu
  obtain ⟨y, hy, -⟩ := hu
  exact h y hy.1

/- `recoverPoint`'s even-root search ranges over all of `F`; its reductions
stay behind the three lemmas above, so it is frozen for definitional
unfolding from here on. -/
attribute [irreducible] recoverPoint

/-! ### Connecting the embedded scalar operations to the curve group -/

theorem rawSmulG (k : ℕ) : rawSmul k (some (Gx, Gy)) = toRaw (k • G) := by
  rw [← toRawG]
  exact rawSmul_toRaw k G

theorem smulG_ne_zero {k : ℕ} (hk : validScalar k) : k • G ≠ 0 := by
  intro h
  obtain ⟨h1, h2⟩ := hk
  have hdvd := (smulG_eq_zero_iff k).mp h
  have h0 := Nat.eq_zero_of_dvd_of_lt hdvd h2
  omega

theorem exists_point_of_smulG {k : ℕ} (hk : validScalar k) :
    ∃ (x y : F) (hxy : W.Nonsingular x y),
      k • G = WeierstrassCurve.Affine.Point.some hxy := by
  cases hpt : k • G with
  | zero => exact absurd hpt (smulG_ne_zero hk)
  | @some x y hxy => exact ⟨x, y, hxy, rfl⟩

theorem toRaw_some {x y : F} (hxy : W.Nonsingular x y) :
    toRaw (WeierstrassCurve.Affine.Point.some hxy) = some (x.val, y.val) := rfl

theorem toRaw_neg_some {x y : F} (hxy : W.Nonsingular x y) :
    toRaw (-WeierstrassCurve.Affine.Point.some hxy) = some (x.val, (-y).val) := by
  rw [WeierstrassCurve.Affine.Point.neg_some]
  show some (x.val, (W.negY x y).val) = some (x.val, (-y).val)
  rw [W_negY]

theorem xOf_toRaw_neg (p : W.Point) : xOfRaw (toRaw (-p)) = xOfRaw (toRaw p) := by
  cases p with
  | zero => rfl
  | @some x y h =>
    rw [toRaw_neg_some h, toRaw_some h]
    rfl

theorem neg_some_eq {x y : F} (hxy : W.Nonsingular x y) (hneg : W.Nonsingular x (-y)) :
    WeierstrassCurve.Affine.Point.some hneg = -WeierstrassCurve.Affine.Point.some hxy := by
  rw [WeierstrassCurve.Affine.Point.neg_some]
  congr 1
  exact (W_negY x y).symm

theorem derivePublicKey_of_point {k : ℕ} {x y : F} (hxy : W.Nonsingular x y)
    (hk : validScalar k) (hpt : k • G = WeierstrassCurve.Affine.Point.some hxy) :
    derivePublicKey k = .ok x.val := by
  rw [derivePublicKey, if_pos hk, rawSmulG, hpt, toRaw_some]

theorem scalarMultiply_xval {k : ℕ} (hk : validScalar k) {x y : F}
    (hxy : W.Nonsingular x y) :
    scalarMultiply k x.val =
      .ok (xOfRaw (toRaw (k • WeierstrassCurve.Affine.Point.some hxy))) := by
  rcases recoverPoint_point hxy with ⟨hrec, -⟩ | ⟨hrec, -⟩
  · rw [scalarMultiply, hrec]
    show (if validScalar k then Except.ok (xOfRaw (rawSmul k (some (x.val, y.val))))
      else Except.error CryptoError.outOfRange) = _
    rw [if_pos hk, ← toRaw_some hxy, rawSmul_toRaw]
  · have hneg := WeierstrassCurve.Affine.nonsingular_neg hxy
    rw [W_negY] at hneg
    rw [scalarMultiply, hrec]
    show (if validScalar k then Except.ok (xOfRaw (rawSmul k (some (x.val, (-y).val))))
      else Except.error CryptoError.outOfRange) = _
    rw [if_pos hk, ← toRaw_some hneg, rawSmul_toRaw, neg_some_eq hxy hneg, neg_nsmul,
      xOf_toRaw_neg]

/-! ## Embedding of the stealth module (scanning pipeline)

Strings are modelled as `List Char`; the Pedersen-based contract-address
formula (`hash.calculateContractAddressFromHash` from `starknet.js`) is an
external dependency and enters as an opaque parameter taking the salt, the
class hash, and the constructor calldata. -/

structure Announcement where
  stealthAddress : List Char
  ephemeralPubKey : ℕ
  viewTag : ℕ
  metadata : List ℕ
  blockNumber : Option ℕ := none
  transactionHash : Option (List Char) := none

structure StealthPayment where
  announcement : Announcement
  sharedSecret : ℕ
  stealthPrivateKey : ℕ
  stealthPubKey : ℕ

/-- `normalizeAddress` from the stealth module: lower-case, strip the leading
`0x` and following zeros (the regex `^0x0*`), and put `0x` back. -/
def normalizeAddress (address : List Char) : List Char :=
  let lower := address.map Char.toLower
  let rest :=
    match lower with
    | '0' :: 'x' :: t => t.dropWhile (fun c => c = '0')
    | l => l
  '0' :: 'x' :: rest

section Scanning

variable (H : ℕ → ℕ)
variable (calculateContractAddressFromHash : ℕ → List Char → List ℕ → List Char)

/-- `computeStealthContractAddress` from the stealth module: salt defaults to
the public key; constructor calldata is the public key. -/
def computeStealthContractAddress (publicKey : ℕ) (classHash : List Char)
    (salt : Option ℕ) : List Char :=
  let actualSalt := salt.getD publicKey
  calculateContractAddressFromHash actualSalt classHash [publicKey]

/-- `checkAnnouncementViewTag` from the stealth module. -/
def checkAnnouncementViewTag (announcement : Announcement)
    (viewingPrivateKey : ℕ) : Except CryptoError (Option ℕ) := do
  let sharedSecret ← ecdh viewingPrivateKey announcement.ephemeralPubKey
  if computeViewTag H sharedSecret ≠ announcement.viewTag then pure none
  else pure (some sharedSecret)

/-- `verifyAndComputeStealthKey` from the stealth module. -/
def verifyAndComputeStealthKey (announcement : Announcement)
    (viewingPrivateKey spendingPublicKey spendingPrivateKey : ℕ)
    (accountClassHash : List Char) : Except CryptoError (Option StealthPayment) := do
  let s? ← checkAnnouncementViewTag H announcement viewingPrivateKey
  match s? with
  | none => pure none
  | some sharedSecret => do
    let stealthPubKey ← computeStealthPublicKey H spendingPublicKey sharedSecret
    let expectedAddress := computeStealthContractAddress
      calculateContractAddressFromHash stealthPubKey accountClassHash none
    if normalizeAddress expectedAddress ≠ normalizeAddress announcement.stealthAddress then
      pure none
    else
      pure (some ⟨announcement, sharedSecret,
        computeStealthPrivateKey H spendingPrivateKey sharedSecret, stealthPubKey⟩)

/-- `scanAnnouncements` from the stealth module: sequential loop collecting
the matches in input order; exceptions abort the scan. -/
def scanAnnouncements : List Announcement → ℕ → ℕ → ℕ → List Char →
    Except CryptoError (List StealthPayment)
  | [], _, _, _, _ => .ok []
  | a :: rest, kv, Ks, ks, ch => do
    let payment ← verifyAndComputeStealthKey H calculateContractAddressFromHash a kv Ks ks ch
    let payments ← scanAnnouncements rest kv Ks ks ch
    match payment with
    | some p => .ok (p :: payments)
    | none => .ok payments

/-! ### Embedding of the viewing-key module (watch-only scanning) -/

structure ExportedViewingKey where
  chain : List Char
  viewingPrivateKey : ℕ
  spendingPubKey : ℕ

structure ViewingKeyMatch where
  announcement : Announcement
  sharedSecret : ℕ
  stealthPubKey : ℕ

/-- `scanWithViewingKey` from the viewing-key module: same pipeline as the
full scan but without the stealth-private-key derivation. -/
def scanWithViewingKey : List Announcement → ExportedViewingKey → List Char →
    Except CryptoError (List ViewingKeyMatch)
  | [], _, _ => .ok []
  | a :: rest, vk, ch => do
    let sharedSecret ← ecdh vk.viewingPrivateKey a.ephemeralPubKey
    if computeViewTag H sharedSecret ≠ a.viewTag then
      scanWithViewingKey rest vk ch
    else do
      let stealthPubKey ← computeStealthPublicKey H vk.spendingPubKey sharedSecret
      let expectedAddress := computeStealthContractAddress
        calculateContractAddressFromHash stealthPubKey ch none
      if normalizeAddress expectedAddress ≠ normalizeAddress a.stealthAddress then
        scanWithViewingKey rest vk ch
      else do
        let found ← scanWithViewingKey rest vk ch
        .ok (⟨a, sharedSecret, stealthPubKey⟩ :: found)

/-! ### Specification-side description of a matching announcement (for the
scanner claims): an announcement matches when the recomputed view tag equals
the announcement's view tag and the recomputed stealth contract address equals
the announcement's address after canonicalization; a match carries the shared
secret, the stealth public key and `(k_spend + H(s)) mod N`. -/

def annPayment (kv Ks ks : ℕ) (ch : List Char) (a : Announcement) :
    Option StealthPayment :=
  (ecdh kv a.ephemeralPubKey).toOption.bind fun s =>
    if computeViewTag H s = a.viewTag then
      (computeStealthPublicKey H Ks s).toOption.bind fun pk =>
        if normalizeAddress (computeStealthContractAddress
              calculateContractAddressFromHash pk ch none) =
            normalizeAddress a.stealthAddress then
          some ⟨a, s, (ks + H s) % CURVE_ORDER, pk⟩
        else none
    else none

end Scanning

/-- Projection from a full scan result to a watch-only scan result (drops the
stealth private key). -/
def toViewingKeyMatch (p : StealthPayment) : ViewingKeyMatch :=
  ⟨p.announcement, p.sharedSecret, p.stealthPubKey⟩

/-! ## Embedding of the memo codec (`encodeMemo` / `decodeMemo`)

Modelled at the UTF-8 byte level: the JavaScript `TextEncoder` / `TextDecoder`
pair is the identity on the byte sequences underlying the strings, so the
codec itself is a pure function on byte lists. -/

inductive CodecError
  | invalidFormat
deriving DecidableEq, Repr

def BYTES_PER_FELT : ℕ := 31

/-- One 31-byte chunk packed big-endian: `value = (value << 8) | byte`. -/
def packFelt (chunk : List ℕ) : ℕ :=
  chunk.foldl (fun value byte => (value <<< 8) ||| byte) 0

def packChunksAux : ℕ → List ℕ → List ℕ
  | 0, _ => []
  | _ + 1, [] => []
  | fuel + 1, l => packFelt (l.take BYTES_PER_FELT) :: packChunksAux fuel (l.drop BYTES_PER_FELT)

/-- `encodeMemo` from `crypto.ts`, on UTF-8 bytes: length prefix followed by
31-byte big-endian chunks; the empty memo encodes as `[0]`. -/
def encodeMemo (memoBytes : List ℕ) : List ℕ :=
  if memoBytes.length = 0 then [0]
  else memoBytes.length :: packChunksAux memoBytes.length memoBytes

/-- Little-endian byte extraction `(value >> (8*i)) & 0xff`, `k` bytes. -/
def leBytes : ℕ → ℕ → List ℕ
  | 0, _ => []
  | k + 1, v => (v &&& 0xff) :: leBytes k (v >>> 8)

/-- The `k` big-endian bytes of `v`, exactly the bytes the decode loop writes
for a chunk of size `k`. -/
def beBytes (k v : ℕ) : List ℕ := (leBytes k v).reverse

/-- The byte array built by the decode loop: a zero-filled buffer of
`remaining` bytes, the front overwritten chunk by chunk. -/
def decodeChunks : ℕ → List ℕ → List ℕ
  | remaining, [] => List.replicate remaining 0
  | remaining, value :: rest =>
    if remaining = 0 then []
    else
      let chunkSize := min BYTES_PER_FELT remaining
      beBytes chunkSize value ++ decodeChunks (remaining - chunkSize) rest

/-- `decodeMemo` from `crypto.ts`, on UTF-8 bytes: fails only on an empty
felt array; otherwise returns `felts[0]` bytes driven by the length prefix. -/
def decodeMemo (felts : List ℕ) : Except CodecError (List ℕ) :=
  match felts with
  | [] => .error .invalidFormat
  | total :: rest =>
    if total = 0 then .ok []
    else .ok (decodeChunks total rest)

/-! ## Embedding of the meta-address codec (`src/sdk/src/meta-address.ts`) -/

def META_ADDRESS_PREFIX : List Char := ['s', 't']

def CHAIN_ID : List Char := ['s', 't', 'a', 'r', 'k', 'n', 'e', 't']

/-- Lower-case hexadecimal digit, as produced by `BigInt.toString(16)`. -/
def digitChar (d : ℕ) : Char :=
  if d < 10 then Char.ofNat (48 + d) else Char.ofNat (87 + d)

def hexDigitsAux : ℕ → ℕ → List ℕ
  | 0, _ => []
  | fuel + 1, n => if n = 0 then [] else n % 16 :: hexDigitsAux fuel (n / 16)

/-- `n.toString(16)`: minimal lower-case hex, `"0"` for zero. -/
def natToHex (n : ℕ) : List Char :=
  if n = 0 then ['0']
  else (hexDigitsAux n n).reverse.map digitChar

/-- `"0x" + n.toString(16)`. -/
def hex0x (n : ℕ) : List Char := '0' :: 'x' :: natToHex n

/-- `encodeMetaAddressFromPubKeys` from `meta-address.ts`. -/
def encodeMetaAddressFromPubKeys (spendingPubKey viewingPubKey : ℕ) : List Char :=
  META_ADDRESS_PREFIX ++ ':' :: CHAIN_ID ++ ':' :: hex0x spendingPubKey ++
    ':' :: hex0x viewingPubKey

/-- `String.split(":")` for a single-character separator. -/
def splitColon : List Char → List (List Char)
  | [] => [[]]
  | c :: t =>
    match splitColon t with
    | [] => [[c]]
    | h :: r => if c = ':' then [] :: h :: r else (c :: h) :: r

def parseHexDigit (c : Char) : Option ℕ :=
  if '0' ≤ c ∧ c ≤ '9' then some (c.toNat - 48)
  else if 'a' ≤ c ∧ c ≤ 'f' then some (c.toNat - 87)
  else if 'A' ≤ c ∧ c ≤ 'F' then some (c.toNat - 55)
  else none

def parseHexAux : List Char → ℕ → Option ℕ
  | [], acc => some acc
  | c :: t, acc =>
    match parseHexDigit c with
    | none => none
    | some d => parseHexAux t (acc * 16 + d)

/-- `BigInt("0x" + digits)`: at least one digit, all hexadecimal. -/
def parseHexString (l : List Char) : Option ℕ :=
  if l = [] then none else parseHexAux l 0

structure MetaAddress where
  chain : List Char
  spendingPubKey : ℕ
  viewingPubKey : ℕ
deriving DecidableEq, Repr

def MAX_FELT : ℕ := 2 ^ 252

/-- `parseFelt` from `meta-address.ts`: accept `0x`-prefixed or raw hex,
require the value to be a felt (`< 2^252`). -/
def parseFelt (value : List Char) : Except CodecError ℕ :=
  let digits := if value.take 2 = ['0', 'x'] then value.drop 2 else value
  match parseHexString digits with
  | none => .error .invalidFormat
  | some result => if result < MAX_FELT then .ok result else .error .invalidFormat

/-- `parseMetaAddress` from `meta-address.ts`. -/
def parseMetaAddress (metaAddress : List Char) : Except CodecError MetaAddress :=
  match splitColon metaAddress with
  | [tagPart, chain, spendingStr, viewingStr] =>
    if tagPart ≠ META_ADDRESS_PREFIX then .error .invalidFormat
    else if chain ≠ CHAIN_ID then .error .invalidFormat
    else do
      let spendingPubKey ← parseFelt spendingStr
      let viewingPubKey ← parseFelt viewingStr
      .ok ⟨chain, spendingPubKey, viewingPubKey⟩
  | _ => .error .invalidFormat

/-- `isValidMetaAddress` from `meta-address.ts`. -/
def isValidMetaAddress (metaAddress : List Char) : Bool :=
  match parseMetaAddress metaAddress with
  | .ok _ => true
  | .error _ => false

/-! ## Embedding of the payment-link codec (`src/sdk/dist/index.mjs`)

Link strings are modelled as UTF-8 byte lists.  `encodeURIComponent` keeps the
unreserved characters and percent-encodes every other byte with upper-case hex
(it works per UTF-8 byte once strings are viewed as their UTF-8 bytes).
`URLSearchParams` splits on `&`, splits each pair at the first `=`, and
percent-decodes leniently (malformed `%` sequences are kept verbatim, `+`
becomes a space).  `decodeURIComponent` percent-decodes strictly and throws on
a malformed `%` sequence. -/

def charsOfBytes (bytes : List ℕ) : List Char := bytes.map Char.ofNat

/-- Unreserved bytes of `encodeURIComponent`:
`A-Z a-z 0-9 - _ . ! ~ * ' ( )`. -/
def uriUnreservedByte (b : ℕ) : Bool :=
  (48 ≤ b && b ≤ 57) || (65 ≤ b && b ≤ 90) || (97 ≤ b && b ≤ 122) ||
    (b == 45) || (b == 95) || (b == 46) || (b == 33) || (b == 126) ||
    (b == 42) || (b == 39) || (b == 40) || (b == 41)

/-- Upper-case hexadecimal digit byte. -/
def hexDigitUpper (d : ℕ) : ℕ := if d < 10 then 48 + d else 55 + d

def encodeURIComponentBytes (bytes : List ℕ) : List ℕ :=
  (bytes.map fun b =>
    if uriUnreservedByte b then [b]
    else [37, hexDigitUpper (b / 16), hexDigitUpper (b % 16)]).flatten

/-- The numeric value of a hexadecimal digit byte (either case). -/
def hexValOfByte (b : ℕ) : Option ℕ :=
  if 48 ≤ b ∧ b ≤ 57 then some (b - 48)
  else if 97 ≤ b ∧ b ≤ 102 then some (b - 87)
  else if 65 ≤ b ∧ b ≤ 70 then some (b - 55)
  else none

/-- `decodeURIComponent`: strict percent-decoding, `URIError` on a `%` not
followed by two hexadecimal digits. -/
def decodeURIComponentBytes : List ℕ → Except CodecError (List ℕ)
  | [] => .ok []
  | 37 :: h :: l :: t =>
    match hexValOfByte h, hexValOfByte l with
    | some hv, some lv => do
      let rest ← decodeURIComponentBytes t
      .ok ((16 * hv + lv) :: rest)
    | _, _ => .error .invalidFormat
  | 37 :: _ => .error .invalidFormat
  | c :: t => do
    let rest ← decodeURIComponentBytes t
    .ok (c :: rest)

/-- The `application/x-www-form-urlencoded` decoding used by
`URLSearchParams`: `+` is a space, malformed `%` sequences stay verbatim. -/
def wwwFormDecode : List ℕ → List ℕ
  | [] => []
  | 43 :: t => 32 :: wwwFormDecode t
  | 37 :: h :: l :: t =>
    match hexValOfByte h, hexValOfByte l with
    | some hv, some lv => (16 * hv + lv) :: wwwFormDecode t
    | _, _ => 37 :: wwwFormDecode (h :: l :: t)
  | c :: t => c :: wwwFormDecode t

def splitOnByte (sep : ℕ) : List ℕ → List (List ℕ)
  | [] => [[]]
  | c :: t =>
    match splitOnByte sep t with
    | [] => [[c]]
    | h :: r => if c = sep then [] :: h :: r else (c :: h) :: r

/-- `new URLSearchParams(query).get(name)`: first pair whose decoded key
equals `name`, its decoded value. -/
def searchParamsGet (query : List ℕ) (name : List ℕ) : Option (List ℕ) :=
  let pairs := ((splitOnByte 38 query).filter (fun part => part ≠ [])).map fun part =>
    let s := part.span (fun b => b ≠ 61)
    (wwwFormDecode s.1, wwwFormDecode (s.2.drop 1))
  (pairs.find? (fun pr => pr.1 = name)).map (fun pr => pr.2)

def decDigitsAux : ℕ → ℕ → List ℕ
  | 0, _ => []
  | fuel + 1, n => if n = 0 then [] else n % 10 :: decDigitsAux fuel (n / 10)

/-- `amount.toString()`: decimal digit bytes. -/
def natToDecBytes (n : ℕ) : List ℕ :=
  if n = 0 then [48]
  else (decDigitsAux n n).reverse.map (fun d => 48 + d)

def decValOfByte (b : ℕ) : Option ℕ :=
  if 48 ≤ b ∧ b ≤ 57 then some (b - 48) else none

def parseDecAux : List ℕ → ℕ → Option ℕ
  | [], acc => some acc
  | b :: t, acc =>
    match decValOfByte b with
    | none => none
    | some d => parseDecAux t (acc * 10 + d)

/-- `BigInt(str)` on the decimal strings produced by `toString()`. -/
def parseDecBytes (l : List ℕ) : Option ℕ :=
  if l = [] then none else parseDecAux l 0

structure PaymentLinkParams where
  metaAddress : List ℕ
  tokenAddress : Option (List ℕ) := none
  amount : Option ℕ := none
  memo : Option (List ℕ) := none

structure ParsedPaymentLink where
  metaAddress : MetaAddress
  metaAddressRaw : List ℕ
  tokenAddress : Option (List ℕ)
  amount : Option ℕ
  memo : Option (List ℕ)

/-- The bytes of `"amora://pay?"`. -/
def linkHead : List ℕ :=
  (['a', 'm', 'o', 'r', 'a', ':', '/', '/', 'p', 'a', 'y', '?'].map Char.toNat)

def metaKey : List ℕ := (['m', 'e', 't', 'a'].map Char.toNat)

def tokenKey : List ℕ := (['t', 'o', 'k', 'e', 'n'].map Char.toNat)

def amountKey : List ℕ := (['a', 'm', 'o', 'u', 'n', 't'].map Char.toNat)

def memoKey : List ℕ := (['m', 'e', 'm', 'o'].map Char.toNat)

def eqByte : ℕ := Char.toNat '='

/-- `generatePaymentLink` from the dist bundle. -/
def generatePaymentLink (params : PaymentLinkParams) :
    Except CodecError (List ℕ) :=
  if isValidMetaAddress (charsOfBytes params.metaAddress) = false then
    .error .invalidFormat
  else
    let queryParts := [metaKey ++ eqByte :: encodeURIComponentBytes params.metaAddress]
    let queryParts := queryParts ++
      (match params.tokenAddress with
        | some tok => [tokenKey ++ eqByte :: encodeURIComponentBytes tok]
        | none => [])
    let queryParts := queryParts ++
      (match params.amount with
        | some am => [amountKey ++ eqByte :: natToDecBytes am]
        | none => [])
    let queryParts := queryParts ++
      (match params.memo with
        | some m => [memoKey ++ eqByte :: encodeURIComponentBytes m]
        | none => [])
    .ok (linkHead ++ List.intercalate [38] queryParts)

/-- `parsePaymentLink` from the dist bundle: note that every field value read
from `URLSearchParams` (already percent-decoded) is passed through
`decodeURIComponent` a second time. -/
def parsePaymentLink (link : List ℕ) : Except CodecError ParsedPaymentLink :=
  if link.take 12 ≠ linkHead then .error .invalidFormat
  else
    let queryString := link.drop 12
    match searchParamsGet queryString metaKey with
    | none => .error .invalidFormat
    | some metaRaw =>
      if metaRaw = [] then .error .invalidFormat
      else do
        let metaAddressRaw ← decodeURIComponentBytes metaRaw
        let metaAddress ← (match parseMetaAddress (charsOfBytes metaAddressRaw) with
          | .ok m => Except.ok m
          | .error e => Except.error e)
        let tokenAddress ← (match searchParamsGet queryString tokenKey with
          | some tok =>
            if tok = [] then Except.ok none
            else (decodeURIComponentBytes tok).map some
          | none => Except.ok none)
        let amount ← (match searchParamsGet queryString amountKey with
          | some am =>
            if am = [] then Except.ok none
            else
              match parseDecBytes am with
              | some v => Except.ok (some v)
              | none => Except.error .invalidFormat
          | none => Except.ok none)
        let memo ← (match searchParamsGet queryString memoKey with
          | some m =>
            if m = [] then Except.ok none
            else (decodeURIComponentBytes m).map some
          | none => Except.ok none)
        .ok ⟨metaAddress, metaAddressRaw, tokenAddress, amount, memo⟩

/-! ## Correctness of the memo codec -/

theorem shiftLeft_lor_small (v b : ℕ) (hb : b < 256) : (v <<< 8) ||| b = v * 256 + b := by
  have h1 : v <<< 8 = v * 256 := by rw [Nat.shiftLeft_eq]
  rw [h1]
  apply Nat.eq_of_testBit_eq
  intro j
  rw [Nat.testBit_lor]
  have h256 : v * 256 = 2 ^ 8 * v := by ring
  rw [h256, Nat.testBit_mul_pow_two_add v (show b < 2 ^ 8 by omega) j]
  have hshift : 2 ^ 8 * v = v <<< 8 := by rw [Nat.shiftLeft_eq]; ring
  rcases Nat.lt_or_ge j 8 with hj | hj
  · rw [if_pos hj]
    have hv : (2 ^ 8 * v).testBit j = false := by
      rw [hshift, Nat.testBit_shiftLeft]
      simp [Nat.not_le.mpr hj]
    rw [hv, Bool.false_or]
  · rw [if_neg (Nat.not_lt.mpr hj)]
    have hbf : b.testBit j = false := by
      apply Nat.testBit_eq_false_of_lt
      calc b < 2 ^ 8 := by omega
      _ ≤ 2 ^ j := Nat.pow_le_pow_right (by norm_num) hj
    have hv2 : (2 ^ 8 * v).testBit j = v.testBit (j - 8) := by
      rw [hshift, Nat.testBit_shiftLeft]
      simp [hj]
    rw [hbf, hv2, Bool.or_false]

theorem packFelt_append (c : List ℕ) (b : ℕ) (hb : b < 256) :
    packFelt (c ++ [b]) = packFelt c * 256 + b := by
  rw [packFelt, packFelt, List.foldl_append]
  show (List.foldl _ _ c <<< 8) ||| b = _
  rw [shiftLeft_lor_small _ b hb]

theorem leBytes_step (k v b : ℕ) (hb : b < 256) :
    leBytes (k + 1) (v * 256 + b) = b :: leBytes k v := by
  rw [leBytes]
  have hand : (v * 256 + b) &&& 0xff = b := by
    have h : (0xff : ℕ) = 2 ^ 8 - 1 := by norm_num
    rw [h, Nat.and_pow_two_sub_one_eq_mod]
    omega
  have hshift : (v * 256 + b) >>> 8 = v := by
    rw [Nat.shiftRight_eq_div_pow]
    omega
  rw [hand, hshift]

theorem beBytes_packFelt (c : List ℕ) (hc : ∀ b ∈ c, b < 256) :
    beBytes c.length (packFelt c) = c := by
  induction c using List.reverseRecOn with
  | nil => rfl
  | append_singleton c b ih =>
    have hb : b < 256 := hc b (by simp)
    have hc' : ∀ x ∈ c, x < 256 := fun x hx => hc x (by simp [hx])
    rw [List.length_append, List.length_singleton, packFelt_append c b hb, beBytes,
      leBytes_step c.length (packFelt c) b hb, List.reverse_cons, ← beBytes, ih hc']

theorem decode_encode_chunks :
    ∀ (fuel : ℕ) (l : List ℕ), l.length ≤ fuel → (∀ b ∈ l, b < 256) →
      decodeChunks l.length (packChunksAux fuel l) = l := by
  intro fuel
  induction fuel with
  | zero =>
    intro l hl _
    have h0 : l = [] := List.eq_nil_of_length_eq_zero (by omega)
    subst h0
    rfl
  | succ f ih =>
    intro l hl hb
    cases l with
    | nil => rfl
    | cons a t =>
      show decodeChunks (a :: t).length
        (packFelt ((a :: t).take BYTES_PER_FELT) ::
          packChunksAux f ((a :: t).drop BYTES_PER_FELT)) = a :: t
      have hlen : (a :: t).length = t.length + 1 := rfl
      have hne : (a :: t).length ≠ 0 := by simp
      rw [decodeChunks, if_neg hne]
      have hcs : min BYTES_PER_FELT (a :: t).length = ((a :: t).take BYTES_PER_FELT).length := by
        rw [List.length_take]
      have htake : ∀ b ∈ (a :: t).take BYTES_PER_FELT, b < 256 :=
        fun b hx => hb b (List.mem_of_mem_take hx)
      have hdrop : ∀ b ∈ (a :: t).drop BYTES_PER_FELT, b < 256 :=
        fun b hx => hb b (List.mem_of_mem_drop hx)
      have hdl : ((a :: t).drop BYTES_PER_FELT).length ≤ f := by
        rw [List.length_drop]
        have h31 : (0 : ℕ) < BYTES_PER_FELT := by norm_num [BYTES_PER_FELT]
        omega
      simp only [hcs]
      rw [beBytes_packFelt _ htake]
      have hrem2 : (a :: t).length - (List.take BYTES_PER_FELT (a :: t)).length =
          ((a :: t).drop BYTES_PER_FELT).length := by
        rw [List.length_take, List.length_drop]
        omega
      rw [hrem2, ih _ hdl hdrop, List.take_append_drop]

theorem leBytes_length : ∀ (k v : ℕ), (leBytes k v).length = k := by
  intro k
  induction k with
  | zero => intro v; rfl
  | succ n ih => intro v; rw [leBytes, List.length_cons, ih]

theorem decodeChunks_length :
    ∀ (felts : List ℕ) (rem : ℕ), (decodeChunks rem felts).length = rem := by
  intro felts
  induction felts with
  | nil => intro rem; rw [decodeChunks, List.length_replicate]
  | cons v t ih =>
    intro rem
    rcases Nat.eq_zero_or_pos rem with rfl | hpos
    · rw [decodeChunks, if_pos rfl]
      rfl
    · rw [decodeChunks, if_neg (by omega)]
      rw [List.length_append, beBytes, List.length_reverse, leBytes_length, ih]
      have : min BYTES_PER_FELT rem ≤ rem := Nat.min_le_right _ _
      omega

theorem decodeChunks_overflow :
    ∀ (felts : List ℕ) (rem : ℕ), 31 * felts.length < rem →
      ∃ w : List ℕ, decodeChunks rem felts = w ++ List.replicate (rem - 31 * felts.length) 0 ∧
        w.length = 31 * felts.length := by
  intro felts
  induction felts with
  | nil =>
    intro rem _
    exact ⟨[], by rw [decodeChunks]; simp, rfl⟩
  | cons v t ih =>
    intro rem hrem
    have hlen : (v :: t).length = t.length + 1 := rfl
    rw [hlen] at hrem ⊢
    have hbig : 31 * t.length + 31 < rem := by omega
    rw [decodeChunks, if_neg (by omega)]
    have hmin : min BYTES_PER_FELT rem = 31 := by
      rw [show BYTES_PER_FELT = 31 from rfl]
      omega
    simp only [hmin]
    obtain ⟨w, hw, hwl⟩ := ih (rem - 31) (by omega)
    refine ⟨beBytes 31 v ++ w, ?_, ?_⟩
    · have hcount : rem - 31 - 31 * t.length = rem - 31 * (t.length + 1) := by omega
      rw [hw, List.append_assoc, hcount]
    · rw [List.length_append, hwl, beBytes, List.length_reverse, leBytes_length]
      ring

/-! ## Correctness of the meta-address codec -/

theorem hexDigitsAux_lt : ∀ (fuel n d : ℕ), d ∈ hexDigitsAux fuel n → d < 16 := by
  intro fuel
  induction fuel with
  | zero => intro n d hd; exact absurd hd (by simp [hexDigitsAux])
  | succ f ih =>
    intro n d hd
    rw [hexDigitsAux] at hd
    by_cases hn : n = 0
    · rw [if_pos hn] at hd
      exact absurd hd (by simp)
    · rw [if_neg hn] at hd
      rcases List.mem_cons.mp hd with rfl | hmem
      · exact Nat.mod_lt n (by norm_num)
      · exact ih (n / 16) d hmem

theorem parseHexDigit_digitChar (d : ℕ) (hd : d < 16) :
    parseHexDigit (digitChar d) = some d := by
  interval_cases d <;> decide

theorem digitChar_ne_colon (d : ℕ) (hd : d < 16) : digitChar d ≠ ':' := by
  interval_cases d <;> decide

theorem parseHexAux_map :
    ∀ (ds : List ℕ), (∀ d ∈ ds, d < 16) → ∀ acc : ℕ,
      parseHexAux (ds.map digitChar) acc =
        some (ds.foldl (fun a d => a * 16 + d) acc) := by
  intro ds
  induction ds with
  | nil => intro _ acc; rfl
  | cons d t ih =>
    intro hd acc
    rw [List.map_cons, parseHexAux, parseHexDigit_digitChar d (hd d (by simp))]
    exact ih (fun x hx => hd x (by simp [hx])) (acc * 16 + d)

theorem hexDigitsAux_foldl :
    ∀ (fuel n acc : ℕ), n ≤ fuel →
      (hexDigitsAux fuel n).reverse.foldl (fun a d => a * 16 + d) acc =
        acc * 16 ^ (hexDigitsAux fuel n).length + n := by
  intro fuel
  induction fuel with
  | zero =>
    intro n acc hn
    have h0 : n = 0 := by omega
    subst h0
    show acc = acc * 16 ^ (0 : ℕ) + 0
    rw [pow_zero]
    omega
  | succ f ih =>
    intro n acc hn
    by_cases hn0 : n = 0
    · subst hn0
      show acc = acc * 16 ^ (hexDigitsAux (f + 1) 0).length + 0
      rw [show hexDigitsAux (f + 1) 0 = [] from rfl]
      rw [List.length_nil, pow_zero]
      omega
    · have hstep : hexDigitsAux (f + 1) n = n % 16 :: hexDigitsAux f (n / 16) := by
        rw [hexDigitsAux, if_neg hn0]
      rw [hstep, List.reverse_cons, List.foldl_append]
      have hle : n / 16 ≤ f := by
        have : n / 16 < n := Nat.div_lt_self (by omega) (by norm_num)
        omega
      rw [ih (n / 16) acc hle]
      show (acc * 16 ^ (hexDigitsAux f (n / 16)).length + n / 16) * 16 + n % 16 =
        acc * 16 ^ (n % 16 :: hexDigitsAux f (n / 16)).length + n
      rw [List.length_cons, pow_succ]
      have hmod : n / 16 * 16 + n % 16 = n := by omega
      calc (acc * 16 ^ (hexDigitsAux f (n / 16)).length + n / 16) * 16 + n % 16 =
          acc * (16 ^ (hexDigitsAux f (n / 16)).length * 16) + (n / 16 * 16 + n % 16) := by
            ring
      _ = acc * (16 ^ (hexDigitsAux f (n / 16)).length * 16) + n := by rw [hmod]

theorem parseHexString_natToHex (n : ℕ) : parseHexString (natToHex n) = some n := by
  by_cases hn : n = 0
  · subst hn
    decide
  · rw [natToHex, if_neg hn]
    obtain ⟨m, rfl⟩ := Nat.exists_eq_succ_of_ne_zero hn
    have hstep : hexDigitsAux (m + 1) (m + 1) = (m + 1) % 16 :: hexDigitsAux m ((m + 1) / 16) := by
      rw [hexDigitsAux, if_neg (by omega)]
    have hne : ((hexDigitsAux (m + 1) (m + 1)).reverse.map digitChar) ≠ [] := by
      rw [hstep]
      simp
    rw [parseHexString, if_neg hne]
    have hd16 : ∀ d ∈ (hexDigitsAux (m + 1) (m + 1)).reverse, d < 16 :=
      fun d hd => hexDigitsAux_lt (m + 1) (m + 1) d (List.mem_reverse.mp hd)
    rw [parseHexAux_map _ hd16 0, hexDigitsAux_foldl (m + 1) (m + 1) 0 le_rfl]
    rw [Nat.zero_mul, Nat.zero_add]

theorem splitColon_ne_nil : ∀ l : List Char, splitColon l ≠ [] := by
  intro l
  cases l with
  | nil => simp [splitColon]
  | cons c t =>
    rw [splitColon]
    cases splitColon t with
    | nil => simp
    | cons h r =>
      show (if c = ':' then [] :: h :: r else (c :: h) :: r) ≠ []
      by_cases hc : c = ':'
      · rw [if_pos hc]; simp
      · rw [if_neg hc]; simp

theorem splitColon_no_colon :
    ∀ (a : List Char), (∀ c ∈ a, c ≠ ':') → ∀ t : List Char,
      splitColon (a ++ ':' :: t) = a :: splitColon t := by
  intro a
  induction a with
  | nil =>
    intro _ t
    show splitColon (':' :: t) = [] :: splitColon t
    rw [splitColon]
    cases hs : splitColon t with
    | nil => exact absurd hs (splitColon_ne_nil t)
    | cons h r =>
      show (if (':' : Char) = ':' then [] :: h :: r else ((':' : Char) :: h) :: r) = [] :: h :: r
      rw [if_pos rfl]
  | cons c a' ih =>
    intro hc t
    have hc' : c ≠ ':' := hc c (by simp)
    have ha' : ∀ x ∈ a', x ≠ ':' := fun x hx => hc x (by simp [hx])
    show splitColon (c :: (a' ++ ':' :: t)) = (c :: a') :: splitColon t
    rw [splitColon, ih ha' t]
    cases hs : splitColon t with
    | nil => exact absurd hs (splitColon_ne_nil t)
    | cons h r =>
      show (if c = ':' then [] :: a' :: h :: r else (c :: a') :: h :: r) = (c :: a') :: h :: r
      rw [if_neg hc']

theorem splitColon_all (a : List Char) (h : ∀ c ∈ a, c ≠ ':') : splitColon a = [a] := by
  induction a with
  | nil => rfl
  | cons c a' ih =>
    have hc' : c ≠ ':' := h c (by simp)
    have ha' : ∀ x ∈ a', x ≠ ':' := fun x hx => h x (by simp [hx])
    rw [splitColon, ih ha']
    show (if c = ':' then [] :: a' :: [] else (c :: a') :: []) = [c :: a']
    rw [if_neg hc']

theorem natToHex_no_colon (n : ℕ) : ∀ c ∈ natToHex n, c ≠ ':' := by
  intro c hc
  by_cases hn : n = 0
  · subst hn
    rw [show natToHex 0 = ['0'] from rfl] at hc
    have hc0 := List.mem_singleton.mp hc
    subst hc0
    decide
  · rw [natToHex, if_neg hn] at hc
    obtain ⟨d, hd, rfl⟩ := List.mem_map.mp hc
    exact digitChar_ne_colon d (hexDigitsAux_lt n n d (List.mem_reverse.mp hd))

theorem hex0x_no_colon (n : ℕ) : ∀ c ∈ hex0x n, c ≠ ':' := by
  intro c hc
  rcases List.mem_cons.mp hc with rfl | hc2
  · decide
  rcases List.mem_cons.mp hc2 with rfl | hc3
  · decide
  exact natToHex_no_colon n c hc3

theorem splitColon_encode (sp vp : ℕ) :
    splitColon (encodeMetaAddressFromPubKeys sp vp) =
      [META_ADDRESS_PREFIX, CHAIN_ID, hex0x sp, hex0x vp] := by
  have hassoc : encodeMetaAddressFromPubKeys sp vp =
      META_ADDRESS_PREFIX ++ (':' :: (CHAIN_ID ++ (':' :: (hex0x sp ++ (':' :: hex0x vp))))) := by
    simp [encodeMetaAddressFromPubKeys, List.cons_append, List.append_assoc]
  rw [hassoc]
  rw [splitColon_no_colon META_ADDRESS_PREFIX (by decide)]
  rw [splitColon_no_colon CHAIN_ID (by decide)]
  rw [splitColon_no_colon (hex0x sp) (hex0x_no_colon sp)]
  rw [splitColon_all (hex0x vp) (hex0x_no_colon vp)]

theorem parseFelt_hex0x (n : ℕ) (h : n < 2 ^ 252) : parseFelt (hex0x n) = .ok n := by
  have hps : parseHexString ((hex0x n).drop 2) = some n := parseHexString_natToHex n
  show (match parseHexString (if (hex0x n).take 2 = ['0', 'x']
      then (hex0x n).drop 2 else hex0x n) with
    | none => Except.error CodecError.invalidFormat
    | some result =>
      if result < MAX_FELT then Except.ok result else Except.error CodecError.invalidFormat) =
    Except.ok n
  rw [if_pos (show (hex0x n).take 2 = ['0', 'x'] from rfl), hps]
  exact if_pos h

/-! ## Scanner pipeline lemmas -/

theorem except_bind_ok {ε α β : Type} (x : α) (f : α → Except ε β) :
    (Except.ok x >>= f) = f x := rfl

theorem except_bind_error {ε α β : Type} (e : ε) (f : α → Except ε β) :
    ((Except.error e : Except ε α) >>= f) = Except.error e := rfl

theorem except_map_ok {ε α β : Type} (f : α → β) (x : α) :
    Except.map f (Except.ok x : Except ε α) = Except.ok (f x) := rfl

theorem except_map_error {ε α β : Type} (f : α → β) (e : ε) :
    Except.map f (Except.error e : Except ε α) = Except.error e := rfl

theorem except_pure_bind {ε α β : Type} (x : α) (f : α → Except ε β) :
    ((pure x : Except ε α) >>= f) = f x := rfl

theorem except_toOption_ok {ε α : Type} (x : α) :
    (Except.ok x : Except ε α).toOption = some x := rfl

theorem except_toOption_error {ε α : Type} (e : ε) :
    (Except.error e : Except ε α).toOption = none := rfl

theorem option_some_bind {α β : Type} (x : α) (f : α → Option β) :
    (some x).bind f = f x := rfl

theorem check_error (H : ℕ → ℕ) (a : Announcement) (kv : ℕ) (e : CryptoError)
    (he : ecdh kv a.ephemeralPubKey = .error e) :
    checkAnnouncementViewTag H a kv = .error e := by
  rw [checkAnnouncementViewTag, he, except_bind_error]

theorem check_ok (H : ℕ → ℕ) (a : Announcement) (kv s : ℕ)
    (hs : ecdh kv a.ephemeralPubKey = .ok s) :
    checkAnnouncementViewTag H a kv =
      if computeViewTag H s ≠ a.viewTag then pure none else pure (some s) := by
  rw [checkAnnouncementViewTag, hs, except_bind_ok]

theorem verify_eq (H : ℕ → ℕ) (calcAddr : ℕ → List Char → List ℕ → List Char)
    (a : Announcement) (kv Ks ks : ℕ) (ch : List Char) :
    verifyAndComputeStealthKey H calcAddr a kv Ks ks ch =
      match ecdh kv a.ephemeralPubKey with
      | .error e => .error e
      | .ok s =>
        if computeViewTag H s ≠ a.viewTag then .ok none
        else
          match computeStealthPublicKey H Ks s with
          | .error e => .error e
          | .ok pk =>
            if normalizeAddress (computeStealthContractAddress calcAddr pk ch none) ≠
                normalizeAddress a.stealthAddress then .ok none
            else .ok (some ⟨a, s, computeStealthPrivateKey H ks s, pk⟩) := by
  rw [verifyAndComputeStealthKey]
  cases hecdh : ecdh kv a.ephemeralPubKey with
  | error e => rw [check_error H a kv e hecdh, except_bind_error]
  | ok s =>
    rw [check_ok H a kv s hecdh]
    show _ = (if computeViewTag H s ≠ a.viewTag
        then (Except.ok none : Except CryptoError (Option StealthPayment))
      else
        match computeStealthPublicKey H Ks s with
        | .error e => .error e
        | .ok pk =>
          if normalizeAddress (computeStealthContractAddress calcAddr pk ch none) ≠
              normalizeAddress a.stealthAddress then .ok none
          else .ok (some ⟨a, s, computeStealthPrivateKey H ks s, pk⟩))
    by_cases htag : computeViewTag H s ≠ a.viewTag
    · rw [if_pos htag, if_pos htag, except_pure_bind]
      rfl
    · rw [if_neg htag, if_neg htag, except_pure_bind]
      show (computeStealthPublicKey H Ks s >>= fun stealthPubKey =>
        let expectedAddress := computeStealthContractAddress calcAddr stealthPubKey ch none
        if normalizeAddress expectedAddress ≠ normalizeAddress a.stealthAddress then
          pure none
        else
          pure (some (⟨a, s, computeStealthPrivateKey H ks s,
            stealthPubKey⟩ : StealthPayment))) = _
      cases hpk : computeStealthPublicKey H Ks s with
      | error e => rw [except_bind_error]
      | ok pk =>
        rw [except_bind_ok]
        rfl

theorem verify_ok_annPayment (H : ℕ → ℕ) (calcAddr : ℕ → List Char → List ℕ → List Char)
    (a : Announcement) (kv Ks ks : ℕ) (ch : List Char)
    (p? : Option StealthPayment)
    (h : verifyAndComputeStealthKey H calcAddr a kv Ks ks ch = .ok p?) :
    annPayment H calcAddr kv Ks ks ch a = p? := by
  rw [verify_eq] at h
  rw [annPayment]
  cases hecdh : ecdh kv a.ephemeralPubKey with
  | error e =>
    rw [hecdh] at h
    have h2 : (Except.error e : Except CryptoError (Option StealthPayment)) = .ok p? := h
    exact absurd h2 (by simp)
  | ok s =>
    rw [hecdh] at h
    have h2 : (if computeViewTag H s ≠ a.viewTag
        then (Except.ok none : Except CryptoError (Option StealthPayment))
      else
        match computeStealthPublicKey H Ks s with
        | .error e => .error e
        | .ok pk =>
          if normalizeAddress (computeStealthContractAddress calcAddr pk ch none) ≠
              normalizeAddress a.stealthAddress then .ok none
          else .ok (some ⟨a, s, computeStealthPrivateKey H ks s, pk⟩)) = .ok p? := h
    rw [except_toOption_ok, option_some_bind]
    by_cases htag : computeViewTag H s = a.viewTag
    · rw [if_pos htag]
      rw [if_neg (fun hcon => hcon htag)] at h2
      cases hpk : computeStealthPublicKey H Ks s with
      | error e =>
        rw [hpk] at h2
        have h3 : (Except.error e : Except CryptoError (Option StealthPayment)) = .ok p? := h2
        exact absurd h3 (by simp)
      | ok pk =>
        rw [hpk] at h2
        have h3 : (if normalizeAddress (computeStealthContractAddress calcAddr pk ch none) ≠
              normalizeAddress a.stealthAddress
            then (Except.ok none : Except CryptoError (Option StealthPayment))
          else .ok (some ⟨a, s, computeStealthPrivateKey H ks s, pk⟩)) = .ok p? := h2
        rw [except_toOption_ok, option_some_bind]
        by_cases haddr : normalizeAddress (computeStealthContractAddress calcAddr pk ch none) =
            normalizeAddress a.stealthAddress
        · rw [if_pos haddr]
          rw [if_neg (fun hcon => hcon haddr)] at h3
          exact Except.ok.inj h3
        · rw [if_neg haddr]
          rw [if_pos haddr] at h3
          exact Except.ok.inj h3
    · rw [if_neg htag]
      rw [if_pos htag] at h2
      exact Except.ok.inj h2

/-- C2: whenever the full scan returns a result list, it is exactly the
announcements (in input order) whose recomputed view tag and canonicalized
recomputed stealth address match, each carrying the shared secret, the stealth
public key, and the stealth private key `(k_spend + H(s)) mod N`. -/
theorem claim_C2_scanAnnouncements_filter (H : ℕ → ℕ)
    (calcAddr : ℕ → List Char → List ℕ → List Char)
    (anns : List Announcement) (kv Ks ks : ℕ) (ch : List Char)
    (res : List StealthPayment)
    (hres : scanAnnouncements H calcAddr anns kv Ks ks ch = .ok res) :
    res = anns.filterMap (annPayment H calcAddr kv Ks ks ch) := by
  induction anns generalizing res with
  | nil =>
    rw [scanAnnouncements] at hres
    rw [List.filterMap_nil]
    exact (Except.ok.inj hres).symm
  | cons a rest ih =>
    rw [scanAnnouncements] at hres
    cases hv : verifyAndComputeStealthKey H calcAddr a kv Ks ks ch with
    | error e =>
      rw [hv, except_bind_error] at hres
      exact absurd hres (by simp)
    | ok p? =>
      rw [hv, except_bind_ok] at hres
      cases hscan : scanAnnouncements H calcAddr rest kv Ks ks ch with
      | error e =>
        rw [hscan, except_bind_error] at hres
        exact absurd hres (by simp)
      | ok ps =>
        rw [hscan, except_bind_ok] at hres
        rw [List.filterMap_cons, verify_ok_annPayment H calcAddr a kv Ks ks ch p? hv]
        cases p? with
        | none =>
          rw [← ih ps hscan]
          exact (Except.ok.inj hres).symm
        | some p =>
          rw [← ih ps hscan]
          exact (Except.ok.inj hres).symm

/-- C2 witness. -/
theorem claim_C2_scanAnnouncements_filter_witness :
    ([] : List StealthPayment) =
      ([] : List Announcement).filterMap
        (annPayment (fun _ => 0) (fun _ _ _ => []) 1 2 3 []) :=
  claim_C2_scanAnnouncements_filter (fun _ => 0) (fun _ _ _ => []) [] 1 2 3 [] [] rfl

/-- C7: the watch-only scan is the full scan with the stealth private key
dropped: it matches exactly the same announcements (for any spending private
key) and returns the same announcement, shared secret and stealth public key. -/
theorem claim_C7_scanWithViewingKey_refines (H : ℕ → ℕ)
    (calcAddr : ℕ → List Char → List ℕ → List Char)
    (anns : List Announcement) (chain : List Char) (kv Ks ks : ℕ) (ch : List Char) :
    scanWithViewingKey H calcAddr anns ⟨chain, kv, Ks⟩ ch =
      Except.map (List.map toViewingKeyMatch)
        (scanAnnouncements H calcAddr anns kv Ks ks ch) := by
  induction anns with
  | nil => rfl
  | cons a rest ih =>
    rw [scanWithViewingKey, scanAnnouncements, verify_eq]
    show (ecdh kv a.ephemeralPubKey >>= fun sharedSecret => _) = _
    cases hecdh : ecdh kv a.ephemeralPubKey with
    | error e =>
      rw [except_bind_error, except_bind_error, except_map_error]
    | ok s =>
      rw [except_bind_ok]
      show (if computeViewTag H s ≠ a.viewTag then
          scanWithViewingKey H calcAddr rest ⟨chain, kv, Ks⟩ ch
        else do
          let stealthPubKey ← computeStealthPublicKey H Ks s
          let expectedAddress := computeStealthContractAddress calcAddr stealthPubKey ch none
          if normalizeAddress expectedAddress ≠ normalizeAddress a.stealthAddress then
            scanWithViewingKey H calcAddr rest ⟨chain, kv, Ks⟩ ch
          else do
            let found ← scanWithViewingKey H calcAddr rest ⟨chain, kv, Ks⟩ ch
            Except.ok (⟨a, s, stealthPubKey⟩ :: found)) =
        Except.map (List.map toViewingKeyMatch)
          ((if computeViewTag H s ≠ a.viewTag
              then (Except.ok none : Except CryptoError (Option StealthPayment))
            else
              match computeStealthPublicKey H Ks s with
              | .error e => .error e
              | .ok pk =>
                if normalizeAddress (computeStealthContractAddress calcAddr pk ch none) ≠
                    normalizeAddress a.stealthAddress then .ok none
                else .ok (some ⟨a, s, computeStealthPrivateKey H ks s, pk⟩)) >>= fun payment =>
            scanAnnouncements H calcAddr rest kv Ks ks ch >>= fun payments =>
            match payment with
            | some p => Except.ok (p :: payments)
            | none => Except.ok payments)
      by_cases htag : computeViewTag H s ≠ a.viewTag
      · rw [if_pos htag, if_pos htag, except_bind_ok, ih]
        cases hscan : scanAnnouncements H calcAddr rest kv Ks ks ch with
        | error e => rw [except_map_error, except_bind_error, except_map_error]
        | ok ps =>
          rw [except_map_ok, except_bind_ok]
          rfl
      · rw [if_neg htag, if_neg htag]
        cases hpk : computeStealthPublicKey H Ks s with
        | error e =>
          rw [except_bind_error]
          rfl
        | ok pk =>
          rw [except_bind_ok]
          show (if normalizeAddress (computeStealthContractAddress calcAddr pk ch none) ≠
              normalizeAddress a.stealthAddress then
              scanWithViewingKey H calcAddr rest ⟨chain, kv, Ks⟩ ch
            else do
              let found ← scanWithViewingKey H calcAddr rest ⟨chain, kv, Ks⟩ ch
              Except.ok (⟨a, s, pk⟩ :: found)) =
            Except.map (List.map toViewingKeyMatch)
              ((if normalizeAddress (computeStealthContractAddress calcAddr pk ch none) ≠
                  normalizeAddress a.stealthAddress
                  then (Except.ok none : Except CryptoError (Option StealthPayment))
                else .ok (some ⟨a, s, computeStealthPrivateKey H ks s, pk⟩)) >>= fun payment =>
                scanAnnouncements H calcAddr rest kv Ks ks ch >>= fun payments =>
                match payment with
                | some p => Except.ok (p :: payments)
                | none => Except.ok payments)
          by_cases haddr : normalizeAddress (computeStealthContractAddress calcAddr pk ch none) ≠
              normalizeAddress a.stealthAddress
          · rw [if_pos haddr, if_pos haddr, except_bind_ok, ih]
            cases hscan : scanAnnouncements H calcAddr rest kv Ks ks ch with
            | error e => rw [except_map_error, except_bind_error, except_map_error]
            | ok ps =>
              rw [except_map_ok, except_bind_ok]
              rfl
          · rw [if_neg haddr, if_neg haddr, except_bind_ok, ih]
            cases hscan : scanAnnouncements H calcAddr rest kv Ks ks ch with
            | error e =>
              rw [except_map_error, except_bind_error, except_bind_error, except_map_error]
            | ok ps =>
              rw [except_map_ok, except_bind_ok, except_bind_ok]
              rfl

/-- C9: an announcement whose ephemeral x-coordinate has no square root for
`y^2 = x^3 + a x + b` makes `checkAnnouncementViewTag` fail with `notOnCurve`,
and the full scan propagates a failure instead of skipping the announcement. -/
theorem claim_C9_notOnCurve_propagates (H : ℕ → ℕ)
    (calcAddr : ℕ → List Char → List ℕ → List Char)
    (a : Announcement) (kv Ks ks : ℕ) (ch : List Char)
    (pre post : List Announcement)
    (hbad : ∀ y : F, y * y ≠ ySquared (a.ephemeralPubKey : F)) :
    checkAnnouncementViewTag H a kv = .error .notOnCurve ∧
    scanAnnouncements H calcAddr (a :: post) kv Ks ks ch = .error .notOnCurve ∧
    ∃ e, scanAnnouncements H calcAddr (pre ++ a :: post) kv Ks ks ch = .error e := by
  have hrec := recoverPoint_no_root hbad
  have hecdh : ecdh kv a.ephemeralPubKey = .error .notOnCurve := by
    rw [ecdh, scalarMultiply, hrec, except_bind_error]
  have hcheck : checkAnnouncementViewTag H a kv = .error .notOnCurve := by
    rw [checkAnnouncementViewTag, hecdh, except_bind_error]
  have hverify : verifyAndComputeStealthKey H calcAddr a kv Ks ks ch = .error .notOnCurve := by
    rw [verifyAndComputeStealthKey, hcheck, except_bind_error]
  have hscan : scanAnnouncements H calcAddr (a :: post) kv Ks ks ch = .error .notOnCurve := by
    rw [scanAnnouncements, hverify, except_bind_error]
  refine ⟨hcheck, hscan, ?_⟩
  induction pre with
  | nil => exact ⟨.notOnCurve, hscan⟩
  | cons p pre' ih =>
    obtain ⟨e, he⟩ := ih
    rw [List.cons_append, scanAnnouncements]
    cases hv : verifyAndComputeStealthKey H calcAddr p kv Ks ks ch with
    | error e' => exact ⟨e', by rw [except_bind_error]⟩
    | ok p? =>
      refine ⟨e, ?_⟩
      rw [except_bind_ok, he, except_bind_error]

/-- C9 witness: the ephemeral key `0` is not on the curve (`CurveB` is a
quadratic non-residue). -/
theorem claim_C9_notOnCurve_propagates_witness :
    checkAnnouncementViewTag (fun _ => 0)
      { stealthAddress := [], ephemeralPubKey := 0, viewTag := 0, metadata := [] } 1 =
      .error .notOnCurve := by
  have hbad : ∀ y : F, y * y ≠ ySquared ((0 : ℕ) : F) := by
    intro y hy
    have hsq : IsSquare (ySquared ((0 : ℕ) : F)) := ⟨y, by rw [hy]⟩
    have hysq : ySquared ((0 : ℕ) : F) = ((CurveB : ℕ) : F) := by
      rw [ySquared]
      push_cast
      ring
    rw [hysq] at hsq
    have hBne : ((CurveB : ℕ) : F) ≠ 0 := by
      intro h0
      have hdvd := (ZMod.natCast_zmod_eq_zero_iff_dvd CurveB StarkP).mp h0
      have hle : StarkP ≤ CurveB := Nat.le_of_dvd (by decide) hdvd
      exact absurd hle (by decide)
    have heuler := (ZMod.euler_criterion StarkP hBne).mp hsq
    rw [zmod_pow_eq_one_iff StarkP CurveB (StarkP / 2) (by norm_num [StarkP])] at heuler
    exact absurd heuler (by decide)
  exact (claim_C9_notOnCurve_propagates (fun _ => 0) (fun _ _ _ => [])
    { stealthAddress := [], ephemeralPubKey := 0, viewTag := 0, metadata := [] }
    1 2 3 [] [] [] hbad).1

/-! ## Claims about the memo codec -/

/-- C5: memo round-trip at the UTF-8 byte level: decoding an encoded memo
returns the original bytes; the empty memo encodes as `[0]`; decoding the
empty felt array fails. -/
theorem claim_C5_memo_roundtrip (memoBytes : List ℕ) (hb : ∀ b ∈ memoBytes, b < 256) :
    decodeMemo (encodeMemo memoBytes) = .ok memoBytes ∧
    encodeMemo [] = [0] ∧
    decodeMemo [] = .error .invalidFormat := by
  refine ⟨?_, rfl, rfl⟩
  cases memoBytes with
  | nil => rfl
  | cons a t =>
    rw [encodeMemo, if_neg (by simp), decodeMemo, if_neg (by simp)]
    rw [decode_encode_chunks (a :: t).length (a :: t) le_rfl hb]

/-- C5 witness: the two-byte UTF-8 character `0xC3 0xA9` followed by `A`. -/
theorem claim_C5_memo_roundtrip_witness :
    (∀ b ∈ [195, 169, 65], b < 256) ∧
      (decodeMemo (encodeMemo [195, 169, 65]) = .ok [195, 169, 65] ∧
        encodeMemo [] = [0] ∧
        decodeMemo [] = .error .invalidFormat) :=
  ⟨by decide, claim_C5_memo_roundtrip [195, 169, 65] (by decide)⟩

/-- C10: a length prefix exceeding the bytes carried by the remaining felts
does not make `decodeMemo` fail: it returns exactly `total` bytes whose
missing tail is zero (NUL) bytes. -/
theorem claim_C10_decodeMemo_overflow_zero_fill (total : ℕ) (rest : List ℕ)
    (hover : 31 * rest.length < total) :
    ∃ w : List ℕ, decodeMemo (total :: rest) =
        .ok (w ++ List.replicate (total - 31 * rest.length) 0) ∧
      w.length = 31 * rest.length ∧
      (w ++ List.replicate (total - 31 * rest.length) 0).length = total := by
  obtain ⟨w, hw, hwl⟩ := decodeChunks_overflow rest total hover
  refine ⟨w, ?_, hwl, ?_⟩
  · rw [decodeMemo, if_neg (by omega), hw]
  · rw [← hw, decodeChunks_length]

/-- C10 witness: a single data felt but a length prefix of 33. -/
theorem claim_C10_decodeMemo_overflow_zero_fill_witness :
    31 * [(5 : ℕ)].length < 33 ∧
      ∃ w : List ℕ, decodeMemo (33 :: [5]) =
          .ok (w ++ List.replicate (33 - 31 * [(5 : ℕ)].length) 0) ∧
        w.length = 31 * [(5 : ℕ)].length ∧
        (w ++ List.replicate (33 - 31 * [(5 : ℕ)].length) 0).length = 33 :=
  ⟨by decide, claim_C10_decodeMemo_overflow_zero_fill 33 [5] (by decide)⟩

/-! ## Claims about the meta-address codec -/

theorem parse_encode_meta (sp vp : ℕ) (hsp : sp < 2 ^ 252) (hvp : vp < 2 ^ 252) :
    parseMetaAddress (encodeMetaAddressFromPubKeys sp vp) = .ok ⟨CHAIN_ID, sp, vp⟩ := by
  rw [parseMetaAddress, splitColon_encode]
  show (if META_ADDRESS_PREFIX ≠ META_ADDRESS_PREFIX
      then (Except.error CodecError.invalidFormat : Except CodecError MetaAddress)
    else if CHAIN_ID ≠ CHAIN_ID then .error .invalidFormat
    else do
      let spendingPubKey ← parseFelt (hex0x sp)
      let viewingPubKey ← parseFelt (hex0x vp)
      Except.ok ⟨CHAIN_ID, spendingPubKey, viewingPubKey⟩) = .ok ⟨CHAIN_ID, sp, vp⟩
  rw [if_neg (by simp), if_neg (by simp)]
  rw [parseFelt_hex0x sp hsp, except_bind_ok, parseFelt_hex0x vp hvp, except_bind_ok]

theorem parseMetaAddress_wrong_chain (l : List Char)
    (hc : (splitColon l)[1]? ≠ some CHAIN_ID) :
    parseMetaAddress l = .error .invalidFormat := by
  rw [parseMetaAddress]
  rcases hsp : splitColon l with _ | ⟨a, _ | ⟨b, _ | ⟨c, _ | ⟨d, _ | ⟨e, tl⟩⟩⟩⟩⟩
  · rfl
  · rfl
  · rfl
  · rfl
  · have hb : b ≠ CHAIN_ID := by
      intro h
      exact hc (by rw [hsp, h]; rfl)
    show (if a ≠ META_ADDRESS_PREFIX
        then (Except.error CodecError.invalidFormat : Except CodecError MetaAddress)
      else if b ≠ CHAIN_ID then .error .invalidFormat
      else do
        let spendingPubKey ← parseFelt c
        let viewingPubKey ← parseFelt d
        Except.ok ⟨b, spendingPubKey, viewingPubKey⟩) = .error .invalidFormat
    by_cases ha : a ≠ META_ADDRESS_PREFIX
    · rw [if_pos ha]
    · rw [if_neg ha, if_pos hb]
  · rfl

/-- C6: meta-address round-trip: encoding two felt public keys and parsing
back yields chain `"starknet"` and the same two keys; and parsing any string
whose second `:`-separated field is not `"starknet"` fails. -/
theorem claim_C6_metaAddress_roundtrip (sp vp : ℕ) (hsp : sp < 2 ^ 252)
    (hvp : vp < 2 ^ 252) :
    parseMetaAddress (encodeMetaAddressFromPubKeys sp vp) = .ok ⟨CHAIN_ID, sp, vp⟩ ∧
    ∀ l : List Char, (splitColon l)[1]? ≠ some CHAIN_ID →
      parseMetaAddress l = .error .invalidFormat :=
  ⟨parse_encode_meta sp vp hsp hvp, parseMetaAddress_wrong_chain⟩

/-- C6 witness: keys `3` and `1000`; the wrong-chain string `"st:eth:0x1:0x2"`. -/
theorem claim_C6_metaAddress_roundtrip_witness :
    (3 : ℕ) < 2 ^ 252 ∧ (1000 : ℕ) < 2 ^ 252 ∧
      parseMetaAddress (encodeMetaAddressFromPubKeys 3 1000) = .ok ⟨CHAIN_ID, 3, 1000⟩ ∧
      parseMetaAddress ['s', 't', ':', 'e', 't', 'h', ':', '0', 'x', '1', ':', '0', 'x', '2'] =
        .error .invalidFormat :=
  ⟨by norm_num, by norm_num,
    (claim_C6_metaAddress_roundtrip 3 1000 (by norm_num) (by norm_num)).1,
    (claim_C6_metaAddress_roundtrip 3 1000 (by norm_num) (by norm_num)).2
      ['s', 't', ':', 'e', 't', 'h', ':', '0', 'x', '1', ':', '0', 'x', '2'] (by decide)⟩

/-! ## Claims about the private-key arithmetic -/

/-- C4: `normalizePrivateKey` on `k ∈ [1, N-1]` returns `N - k` exactly when
the y-coordinate of `k·G` is odd (else `k`), its result is a fixed point of
normalization, and the y-coordinate of the result times `G` is even. -/
theorem claim_C4_normalizePrivateKey (k : ℕ) (hk : validScalar k) :
    ∃ k', normalizePrivateKey k = .ok k' ∧
      k' = (if yOfRaw (rawSmul k (some (Gx, Gy))) % 2 ≠ 0 then StarkN - k else k) ∧
      normalizePrivateKey k' = .ok k' ∧
      yOfRaw (rawSmul k' (some (Gx, Gy))) % 2 = 0 := by
  obtain ⟨x, y, hxy, hpt⟩ := exists_point_of_smulG hk
  have hraw : rawSmul k (some (Gx, Gy)) = some (x.val, y.val) := by
    rw [rawSmulG, hpt, toRaw_some]
  by_cases hey : y.val % 2 = 0
  · refine ⟨k, ?_, ?_, ?_, ?_⟩
    · rw [normalizePrivateKey, if_pos hk, hraw]
      show Except.ok (if y.val % 2 ≠ 0 then StarkN - k else k) = Except.ok k
      rw [if_neg (fun hcon => hcon hey)]
    · rw [hraw]
      show k = (if y.val % 2 ≠ 0 then StarkN - k else k)
      rw [if_neg (fun hcon => hcon hey)]
    · rw [normalizePrivateKey, if_pos hk, hraw]
      show Except.ok (if y.val % 2 ≠ 0 then StarkN - k else k) = Except.ok k
      rw [if_neg (fun hcon => hcon hey)]
    · rw [hraw]
      exact hey
  · have hy0 : y ≠ 0 := by
      intro h0
      rw [h0] at hey
      exact hey (by simp)
    have hk' : validScalar (StarkN - k) := by
      obtain ⟨h1, h2⟩ := hk
      exact ⟨by omega, by omega⟩
    have hneg : (StarkN - k) • G = -(k • G) := by
      apply eq_neg_of_add_eq_zero_left
      rw [← add_nsmul]
      have hsum : StarkN - k + k = StarkN := by
        obtain ⟨h1, h2⟩ := hk
        omega
      rw [hsum, NsmulG_eq_zero]
    have hraw' : rawSmul (StarkN - k) (some (Gx, Gy)) = some (x.val, (-y).val) := by
      rw [rawSmulG, hneg, hpt, toRaw_neg_some]
    have heven' : (-y).val % 2 = 0 := by
      rw [ZMod.neg_val, if_neg hy0]
      have hlt : y.val < StarkP := ZMod.val_lt y
      have hP := starkP_odd
      have hv0 : y.val ≠ 0 := fun h => hy0 ((ZMod.val_eq_zero y).mp h)
      omega
    refine ⟨StarkN - k, ?_, ?_, ?_, ?_⟩
    · rw [normalizePrivateKey, if_pos hk, hraw]
      show Except.ok (if y.val % 2 ≠ 0 then StarkN - k else k) = Except.ok (StarkN - k)
      rw [if_pos hey]
    · rw [hraw]
      show StarkN - k = (if y.val % 2 ≠ 0 then StarkN - k else k)
      rw [if_pos hey]
    · rw [normalizePrivateKey, if_pos hk', hraw']
      show Except.ok (if (-y).val % 2 ≠ 0 then StarkN - (StarkN - k) else StarkN - k) =
        Except.ok (StarkN - k)
      rw [if_neg (fun hcon => hcon heven')]
    · rw [hraw']
      exact heven'

/-- C4 witness. -/
theorem claim_C4_normalizePrivateKey_witness :
    validScalar 1 ∧
      ∃ k', normalizePrivateKey 1 = .ok k' ∧
        k' = (if yOfRaw (rawSmul 1 (some (Gx, Gy))) % 2 ≠ 0 then StarkN - 1 else 1) ∧
        normalizePrivateKey k' = .ok k' ∧
        yOfRaw (rawSmul k' (some (Gx, Gy))) % 2 = 0 :=
  ⟨by decide, claim_C4_normalizePrivateKey 1 (by decide)⟩

/-- C3: ECDH symmetry: for private keys in range with derived public keys,
both parties compute the same shared-secret x-coordinate. -/
theorem claim_C3_ecdh_symmetric (ka kb Ka Kb : ℕ) (hka : validScalar ka)
    (hkb : validScalar kb)
    (hKa : derivePublicKey ka = .ok Ka) (hKb : derivePublicKey kb = .ok Kb) :
    ecdh ka Kb = ecdh kb Ka := by
  obtain ⟨xa, ya, hxya, hpta⟩ := exists_point_of_smulG hka
  obtain ⟨xb, yb, hxyb, hptb⟩ := exists_point_of_smulG hkb
  have hda := derivePublicKey_of_point hxya hka hpta
  rw [hda] at hKa
  have hKav : Ka = xa.val := (Except.ok.inj hKa).symm
  have hdb := derivePublicKey_of_point hxyb hkb hptb
  rw [hdb] at hKb
  have hKbv : Kb = xb.val := (Except.ok.inj hKb).symm
  subst hKav
  subst hKbv
  rw [ecdh, ecdh, scalarMultiply_xval hka hxyb, scalarMultiply_xval hkb hxya]
  have h1 : ka • WeierstrassCurve.Affine.Point.some hxyb = (kb * ka) • G := by
    rw [← hptb, ← mul_nsmul]
  have h2 : kb • WeierstrassCurve.Affine.Point.some hxya = (ka * kb) • G := by
    rw [← hpta, ← mul_nsmul]
  rw [h1, h2, mul_comm kb ka]

/-- C3 witness: keys `1` and `2`. -/
theorem claim_C3_ecdh_symmetric_witness :
    (validScalar 1 ∧ validScalar 2 ∧
      derivePublicKey 1 = .ok Gx ∧
      derivePublicKey 2 =
        .ok 3324833730090626974525872402899302150520188025637965566623476530814354734325) ∧
    ecdh 1 3324833730090626974525872402899302150520188025637965566623476530814354734325 =
      ecdh 2 Gx :=
  ⟨⟨by decide, by decide, rfl, rfl⟩,
    claim_C3_ecdh_symmetric 1 2 Gx
      3324833730090626974525872402899302150520188025637965566623476530814354734325
      (by decide) (by decide) rfl rfl⟩

/-- C1: for a normalized in-range spending key `k` with derived public key
`K`, deriving the public key of the stealth private key `(k + H(s)) mod N`
yields exactly `computeStealthPublicKey K s` — both are the x-coordinate of
`K + H(s)·G` (generic case: `H(s)` in range and `(k + H(s)) mod N ≠ 0`). -/
theorem claim_C1_stealth_key_consistency (H : ℕ → ℕ) (k s K : ℕ)
    (hk : validScalar k)
    (hnorm : yOfRaw (rawSmul k (some (Gx, Gy))) % 2 = 0)
    (hK : derivePublicKey k = .ok K)
    (hH : validScalar (H s))
    (hsum : (k + H s) % StarkN ≠ 0) :
    derivePublicKey (computeStealthPrivateKey H k s) = computeStealthPublicKey H K s := by
  obtain ⟨x, y, hxy, hpt⟩ := exists_point_of_smulG hk
  have hraw : rawSmul k (some (Gx, Gy)) = some (x.val, y.val) := by
    rw [rawSmulG, hpt, toRaw_some]
  rw [hraw] at hnorm
  have heven : y.val % 2 = 0 := hnorm
  have hd := derivePublicKey_of_point hxy hk hpt
  rw [hd] at hK
  have hKx : K = x.val := (Except.ok.inj hK).symm
  subst hKx
  have hrecK : recoverPoint x.val = .ok (x.val, y.val) := recoverPoint_even hxy heven
  have hcompute : computeStealthPublicKey H x.val s =
      .ok (xOfRaw (rawAdd (some (x.val, y.val)) (rawSmul (H s) (some (Gx, Gy))))) := by
    rw [computeStealthPublicKey, hrecK, except_bind_ok]
    show (if validScalar (H s) then
        Except.ok (xOfRaw (rawAdd (some (x.val, y.val)) (rawSmul (H s) (some (Gx, Gy)))))
      else Except.error CryptoError.outOfRange) = _
    rw [if_pos hH]
  have hvalid2 : validScalar ((k + H s) % StarkN) := by
    have hNpos : 0 < StarkN := by decide
    exact ⟨by omega, Nat.mod_lt _ hNpos⟩
  obtain ⟨x2, y2, hxy2, hpt2⟩ := exists_point_of_smulG hvalid2
  have hderive : derivePublicKey ((k + H s) % StarkN) = .ok x2.val :=
    derivePublicKey_of_point hxy2 hvalid2 hpt2
  have hxvyv : (some (x.val, y.val) : RawPt) = toRaw (k • G) := by
    rw [hpt, toRaw_some]
  have hadd : rawAdd (some (x.val, y.val)) (rawSmul (H s) (some (Gx, Gy))) =
      toRaw (((k + H s) % StarkN) • G) := by
    rw [rawSmulG, hxvyv, ← toRaw_add, ← add_nsmul, mod_smulG]
  show derivePublicKey ((k + H s) % StarkN) = computeStealthPublicKey H x.val s
  rw [hderive, hcompute, hadd, hpt2, toRaw_some]
  rfl

/-- C1 witness: `k = 3` (the y-coordinate of `3·G` is even), `H = fun _ => 2`,
`s = 0`. -/
theorem claim_C1_stealth_key_consistency_witness :
    (validScalar 3 ∧
      yOfRaw (rawSmul 3 (some (Gx, Gy))) % 2 = 0 ∧
      derivePublicKey 3 =
        .ok 1839793652349538280924927302501143912227271479439798783640887258675143576352 ∧
      validScalar ((fun _ => 2) 0) ∧
      (3 + (fun _ => 2) 0) % StarkN ≠ 0) ∧
    derivePublicKey (computeStealthPrivateKey (fun _ => 2) 3 0) =
      computeStealthPublicKey (fun _ => 2)
        1839793652349538280924927302501143912227271479439798783640887258675143576352 0 :=
  ⟨⟨by decide, rfl, rfl, by decide, by decide⟩,
    claim_C1_stealth_key_consistency (fun _ => 2) 3 0
      1839793652349538280924927302501143912227271479439798783640887258675143576352
      (by decide) rfl rfl (by decide) (by decide)⟩

/-! ## The payment-link round-trip claim -/

/-- C8: the round trip is broken for a memo containing `"& %"`
(bytes `38, 32, 37`): `generatePaymentLink` succeeds and URL-encodes the memo
once (`%26%20%25`), but `parsePaymentLink` reads the query value back through
`URLSearchParams` — which already percent-decodes it to `& %` — and then
applies `decodeURIComponent` a second time, which rejects the now-bare
trailing `%` as a malformed escape; parsing therefore fails instead of
returning the memo. -/
theorem claim_C8_paymentLink_double_decode :
    Except.isOk (generatePaymentLink
      { metaAddress := [115, 116, 58, 115, 116, 97, 114, 107, 110, 101, 116,
          58, 48, 120, 49, 58, 48, 120, 50],
        tokenAddress := some [48, 120, 49],
        amount := some 5,
        memo := some [38, 32, 37] }) = true ∧
    (generatePaymentLink
      { metaAddress := [115, 116, 58, 115, 116, 97, 114, 107, 110, 101, 116,
          58, 48, 120, 49, 58, 48, 120, 50],
        tokenAddress := some [48, 120, 49],
        amount := some 5,
        memo := some [38, 32, 37] } >>= parsePaymentLink) =
      .error CodecError.invalidFormat :=
  ⟨rfl, rfl⟩

end Amora
